import Mathlib

/-!
Verification of the quiz-question insertion script (`insert_test5.py`).

The script's pipeline is:
 1. extract the body of the `test5_questions = [ ... ]` array from a source
    document (a regex search for `test5_questions = \[(.*?)\n\]` with DOTALL);
 2. split the body into record fragments on the boundary regex
    `\},\s*\n\s*\{`, repair the outer braces of each fragment, and evaluate
    each fragment as a Python literal (failures are reported and skipped);
 3. re-emit every parsed record as a single-line JavaScript object literal,
    join the lines with `,\n` (plus a trailing `,\n`), and insert the joined
    block as one element at index 773 of the destination file's line list,
    then write the lines back out.

Strings are modelled as `List Char`.  Functions whose recursion consumes a
parsed-off remainder of the input (rather than a structural tail) take an
explicit fuel argument; their wrappers supply `length + 1` fuel, which is
always sufficient since every step consumes at least one character.  All
definitions are executable by kernel reduction.
-/

abbrev Str := List Char

/-- `sep.join(pieces)`: the pieces joined by the separator. -/
def sepJoin (sep : Str) : List Str → Str
  | [] => []
  | [x] => x
  | x :: xs => x ++ sep ++ sepJoin sep xs

/-- Python `\s` on the ASCII range: the whitespace class used by `str.strip`
and the `re` patterns in the script. -/
def isPySpace (c : Char) : Bool :=
  c = ' ' || c = '\t' || c = '\n' || c = '\r' || c = '\x0b' || c = '\x0c'

/-- Python `str.strip()`: remove leading and trailing whitespace. -/
def pyStrip (s : Str) : Str :=
  ((s.dropWhile isPySpace).reverse.dropWhile isPySpace).reverse

/-- Fuelled core of `str.replace`: fuel bounds the number of scan steps and
each step consumes at least one character, so the wrapper's `length + 1`
fuel is never exhausted. -/
def pyReplaceF (old new : Str) : Nat → Str → Str
  | 0, s => s
  | _ + 1, [] => []
  | fuel + 1, c :: rest =>
    if old ≠ [] ∧ old.isPrefixOf (c :: rest) then
      new ++ pyReplaceF old new fuel ((c :: rest).drop old.length)
    else
      c :: pyReplaceF old new fuel rest

/-- Python `str.replace(old, new)`: replace every non-overlapping occurrence
of `old` (scanning left to right) by `new`.  The script only calls this with
a nonempty `old`, so the model guards on that. -/
def pyReplace (old new : Str) (s : Str) : Str :=
  pyReplaceF old new (s.length + 1) s

/-- Line 53/54/55 of the script: `x.replace('"', '\\"')` — escape each double
quote by prefixing a backslash. -/
def escapeQuotes (s : Str) : Str :=
  pyReplace ['"'] ['\\', '"'] s

/-- Python `f.readlines()`: split the file content into lines, each line
keeping its trailing newline; a final chunk without a newline is its own
line; the empty file has no lines. -/
def pyReadlines : Str → List Str
  | [] => []
  | c :: rest =>
    if c = '\n' then ['\n'] :: pyReadlines rest
    else
      match pyReadlines rest with
      | [] => [[c]]
      | l :: ls => (c :: l) :: ls

/-- Python `f.writelines(lines)`: concatenate the line list. -/
def pyWritelines (lines : List Str) : Str :=
  lines.flatten

/-- Number of lines of a file content, as `readlines` would report it. -/
def lineCount (s : Str) : Nat :=
  (pyReadlines s).length

/-- Python `list.insert(i, x)` for a non-negative index: insert before
position `i`, appending at the end when `i ≥ length`. -/
def pyInsert (i : Nat) (x : α) (l : List α) : List α :=
  l.take i ++ x :: l.drop i

/-- First index at which `needle` occurs in `hay`, if any. -/
def findSub (needle : Str) : Str → Option Nat
  | [] => if needle = [] then some 0 else none
  | c :: rest =>
    if needle.isPrefixOf (c :: rest) then some 0
    else (findSub needle rest).map (· + 1)

/-- Lines 14–19 of the script:
`re.search(r'test5_questions = \[(.*?)\n\]', content, re.DOTALL)` and
`match.group(1)`.  The leftmost match starts at the first occurrence of the
literal prefix, and the non-greedy group extends to the first following
occurrence of `"\n]"`. -/
def extractArray (content : Str) : Option Str :=
  let pre := "test5_questions = [".toList
  match findSub pre content with
  | none => none
  | some p =>
    let after := content.drop (p + pre.length)
    match findSub "\n]".toList after with
    | none => none
    | some q => some (after.take q)

/-- Fuelled scanner for `re.split(r'\},\s*\n\s*\{', s)`: a split point is a
`}` followed by `,`, then a maximal whitespace run that contains a newline,
then `{`; the match consumes all of it.  `acc` holds the (reversed)
characters of the piece being accumulated.  Each step consumes at least one
input character, so the wrapper's `length + 1` fuel is never exhausted. -/
def splitBoundaryAux : Nat → Str → Str → List Str
  | 0, acc, _ => [acc.reverse]
  | _ + 1, acc, [] => [acc.reverse]
  | fuel + 1, acc, c :: rest =>
    if c = '}' ∧ rest.head? = some ',' then
      if (rest.tail.takeWhile isPySpace).contains '\n' then
        match rest.tail.dropWhile isPySpace with
        | '{' :: rest3 => acc.reverse :: splitBoundaryAux fuel [] rest3
        | _ => splitBoundaryAux fuel (c :: acc) rest
      else splitBoundaryAux fuel (c :: acc) rest
    else splitBoundaryAux fuel (c :: acc) rest

/-- Line 25 of the script: `re.split(r'\},\s*\n\s*\{', array_content.strip())`. -/
def splitBoundary (s : Str) : List Str :=
  splitBoundaryAux (s.length + 1) [] s

/-- Lines 29–33 of the script: strip the fragment, prepend `{` if the result
does not start with `{`, then append `}` if the (possibly prepended) string
does not end with `}`. -/
def repairFragment (s : Str) : Str :=
  let t := pyStrip s
  let t1 := if t.head? = some '{' then t else '{' :: t
  if t1.getLast? = some '}' then t1 else t1 ++ ['}']

/-! ## The value model for `eval` -/

/-- Atomic Python literal values occurring in question records. -/
inductive PyAtom where
  | str (s : Str)
  | int (n : Int)
deriving DecidableEq, Repr

/-- Python literal values occurring in question records: atoms and (flat)
lists of atoms.  This is the literal sublanguage the record format uses. -/
inductive PyVal where
  | atom (a : PyAtom)
  | list (l : List PyAtom)
deriving DecidableEq, Repr

/-- A Python dict as produced by `eval` on a record fragment: key/value
pairs in source order. -/
abbrev PyDict := List (Str × PyVal)

/-- Python dict lookup `d[k]`: the last binding of the key wins. -/
def dictGet (d : PyDict) (k : Str) : Option PyVal :=
  (d.reverse.find? (fun kv => kv.1 = k)).map (·.2)

def isDigitCh (c : Char) : Bool :=
  48 ≤ c.toNat && c.toNat ≤ 57

def skipWS (s : Str) : Str :=
  s.dropWhile isPySpace

/-- Read a run of decimal digits and return its value (base 10, most
significant first) together with the rest of the input. -/
def parseDecNat (s : Str) : Option (Nat × Str) :=
  let ds := s.takeWhile isDigitCh
  if ds = [] then none
  else some (ds.foldl (fun a c => a * 10 + (c.toNat - 48)) 0, s.dropWhile isDigitCh)

/-- Read an optionally `-`-signed decimal integer literal. -/
def parseDecInt (s : Str) : Option (Int × Str) :=
  match s with
  | '-' :: rest => (parseDecNat rest).map (fun p => (-(p.1 : Int), p.2))
  | _ => (parseDecNat s).map (fun p => ((p.1 : Int), p.2))

/-- Result of a Python backslash escape `\e` inside a string literal, for
the escapes the model resolves; `none` means the sequence is kept verbatim
(Python keeps unknown escapes, backslash included). -/
def pyEscChar (e : Char) : Option Char :=
  if e = '\\' then some '\\'
  else if e = '\'' then some '\''
  else if e = '"' then some '"'
  else if e = 'n' then some '\n'
  else if e = 't' then some '\t'
  else none

mutual

/-- Body of a Python string literal with delimiter `delim` (the opening
delimiter has been consumed): resolves the `\\ \' \" \n \t` escapes, keeps
unknown escape sequences verbatim (as Python does), rejects a raw newline,
and stops at the closing delimiter. -/
def parsePyStrBody (delim : Char) : Str → Option (Str × Str)
  | [] => none
  | c :: rest =>
    if c = delim then some ([], rest)
    else if c = '\n' then none
    else if c = '\\' then parsePyStrEsc delim rest
    else (parsePyStrBody delim rest).map (fun p => (c :: p.1, p.2))

/-- Continuation of `parsePyStrBody` after a backslash. -/
def parsePyStrEsc (delim : Char) : Str → Option (Str × Str)
  | [] => none
  | e :: rest2 =>
    match pyEscChar e with
    | some ch => (parsePyStrBody delim rest2).map (fun p => (ch :: p.1, p.2))
    | none => (parsePyStrBody delim rest2).map (fun p => ('\\' :: e :: p.1, p.2))

end

/-- An atomic literal: a string (single- or double-quoted) or an integer. -/
def parsePyAtom (s : Str) : Option (PyAtom × Str) :=
  match s with
  | '"' :: rest => (parsePyStrBody '"' rest).map (fun p => (PyAtom.str p.1, p.2))
  | '\'' :: rest => (parsePyStrBody '\'' rest).map (fun p => (PyAtom.str p.1, p.2))
  | _ => (parseDecInt s).map (fun p => (PyAtom.int p.1, p.2))

/-- Fuelled parser for the elements of a Python list literal, after the
opening `[`: atoms separated by commas (whitespace tolerated, trailing
comma allowed), up to the closing `]`.  One fuel unit per element. -/
def parsePyListAux : Nat → Str → Option (List PyAtom × Str)
  | 0, _ => none
  | fuel + 1, s =>
    match skipWS s with
    | ']' :: r => some ([], r)
    | s1 =>
      match parsePyAtom s1 with
      | none => none
      | some (v, r1) =>
        match skipWS r1 with
        | ']' :: r3 => some ([v], r3)
        | ',' :: r3 =>
          match parsePyListAux fuel r3 with
          | some (vs, r4) => some (v :: vs, r4)
          | none => none
        | _ => none

/-- A Python literal value in the record sublanguage: a (flat) list literal
or an atom, with leading whitespace skipped. -/
def parsePyValue (fuel : Nat) (s : Str) : Option (PyVal × Str) :=
  match skipWS s with
  | '[' :: r => (parsePyListAux fuel r).map (fun p => (PyVal.list p.1, p.2))
  | s1 => (parsePyAtom s1).map (fun p => (PyVal.atom p.1, p.2))

/-- Fuelled parser for the body of a Python dict literal, after the opening
`{`: `"key": value` entries (string keys) separated by commas, trailing
comma allowed, up to the closing `}`.  One fuel unit per entry. -/
def parsePyDictBody : Nat → Str → Option (PyDict × Str)
  | 0, _ => none
  | fuel + 1, s =>
    match skipWS s with
    | '}' :: r => some ([], r)
    | s1 =>
      match parsePyAtom s1 with
      | some (PyAtom.str k, r1) =>
        match skipWS r1 with
        | ':' :: r3 =>
          match parsePyValue fuel r3 with
          | some (v, r6) =>
            match skipWS r6 with
            | '}' :: r8 => some ([(k, v)], r8)
            | ',' :: r8 =>
              match parsePyDictBody fuel r8 with
              | some (kvs, r9) => some ((k, v) :: kvs, r9)
              | none => none
            | _ => none
          | none => none
        | _ => none
      | _ => none

/-- Line 38 of the script, `eval(q_str)`, modelled on the literal
sublanguage the record format uses: a dict literal with string keys whose
values are strings, integers, or flat lists of those atoms.  Inputs outside
this sublanguage (or with trailing garbage) evaluate to `none`. -/
def pyEvalDict (s : Str) : Option PyDict :=
  match skipWS s with
  | '{' :: r =>
    match parsePyDictBody (s.length + 1) r with
    | some (d, r2) => if skipWS r2 = [] then some d else none
    | none => none
  | _ => none

/-! ## The re-emitter (lines 44–77 of the script) -/

/-- Decimal digit character for `d < 10`. -/
def toDigitChar (d : Nat) : Char :=
  if d = 0 then '0' else if d = 1 then '1' else if d = 2 then '2'
  else if d = 3 then '3' else if d = 4 then '4' else if d = 5 then '5'
  else if d = 6 then '6' else if d = 7 then '7' else if d = 8 then '8'
  else '9'

/-- Lowercase hexadecimal digit character for `d < 16`. -/
def toHexChar (d : Nat) : Char :=
  if d < 10 then toDigitChar d
  else if d = 10 then 'a' else if d = 11 then 'b' else if d = 12 then 'c'
  else if d = 13 then 'd' else if d = 14 then 'e' else 'f'

/-- Decimal rendering of a natural number (Python `str`). -/
def natDec (n : Nat) : Str :=
  if n = 0 then ['0'] else ((Nat.digits 10 n).reverse.map toDigitChar)

/-- Decimal rendering of an integer (Python `str` / `json.dumps`). -/
def intDec (n : Int) : Str :=
  if n < 0 then '-' :: natDec n.natAbs else natDec n.natAbs

/-- Four lowercase hex digits of `n < 0x10000`, most significant first. -/
def hex4 (n : Nat) : Str :=
  [toHexChar (n / 4096 % 16), toHexChar (n / 256 % 16),
   toHexChar (n / 16 % 16), toHexChar (n % 16)]

/-- `json.dumps` rendering of one character of a string, with the default
`ensure_ascii=True`: short escapes for `\" \\ \b \f \n \r \t`, `\uXXXX`
escapes (surrogate pairs above `0xFFFF`) for every other character outside
printable ASCII, and the character itself otherwise. -/
def jsonEscChar (c : Char) : Str :=
  if c = '"' then ['\\', '"']
  else if c = '\\' then ['\\', '\\']
  else if c = '\x08' then ['\\', 'b']
  else if c = '\x0c' then ['\\', 'f']
  else if c = '\n' then ['\\', 'n']
  else if c = '\r' then ['\\', 'r']
  else if c = '\t' then ['\\', 't']
  else if c.toNat < 0x20 ∨ 0x7e < c.toNat then
    if c.toNat < 0x10000 then '\\' :: 'u' :: hex4 c.toNat
    else
      '\\' :: 'u' :: hex4 (0xD800 + (c.toNat - 0x10000) / 0x400) ++
      '\\' :: 'u' :: hex4 (0xDC00 + (c.toNat - 0x10000) % 0x400)
  else [c]

/-- `json.dumps` of a string: quoted, every character escaped as needed. -/
def jsonQuoteStr (s : Str) : Str :=
  '"' :: s.flatMap jsonEscChar ++ ['"']

/-- `json.dumps` of one atom. -/
def jsonDumpsAtom : PyAtom → Str
  | PyAtom.str s => jsonQuoteStr s
  | PyAtom.int n => intDec n

/-- The element part of `json.dumps` of a list: items joined by `", "`. -/
def jsonArrBody (l : List PyAtom) : Str :=
  sepJoin ", ".toList (l.map jsonDumpsAtom)

/-- `json.dumps` of a (flat) list. -/
def jsonDumpsAtomList (l : List PyAtom) : Str :=
  '[' :: jsonArrBody l ++ [']']

/-- `json.dumps` of a record value. -/
def jsonDumpsVal : PyVal → Str
  | PyVal.atom a => jsonDumpsAtom a
  | PyVal.list l => jsonDumpsAtomList l

/-- Python `str()` of an atom: the decimal numeral for ints, the bare text
for strings. -/
def pyStrAtom : PyAtom → Str
  | PyAtom.str s => s
  | PyAtom.int n => intDec n

/-- Line 50 of the script: `json.dumps(q['answer']) if isinstance(q['answer'],
list) else str(q['answer'])`. -/
def answerStr : PyVal → Str
  | PyVal.list l => jsonDumpsAtomList l
  | PyVal.atom a => pyStrAtom a

/-- The in-memory shape the re-emitter (lines 48–59) requires of a parsed
record: `cat`, `q`, `explain` must be strings (they get `.replace` applied);
`options` and `answer` may be any value. -/
structure QRecord where
  cat : Str
  q : Str
  explain : Str
  options : PyVal
  answer : PyVal
deriving DecidableEq, Repr

def catKey : Str := "cat".toList
def qKey : Str := "q".toList
def optionsKey : Str := "options".toList
def answerKey : Str := "answer".toList
def explainKey : Str := "explain".toList

/-- Field extraction performed by the re-emitter loop body: the five key
lookups, with `cat`, `q`, `explain` required to be strings.  `none` models
the unhandled `KeyError`/`AttributeError` the Python loop would raise. -/
def toQRecord (d : PyDict) : Option QRecord :=
  match dictGet d catKey, dictGet d qKey, dictGet d optionsKey,
        dictGet d answerKey, dictGet d explainKey with
  | some (PyVal.atom (PyAtom.str cat)), some (PyVal.atom (PyAtom.str qt)),
    some optv, some ansv, some (PyVal.atom (PyAtom.str ex)) =>
    some ⟨cat, qt, ex, optv, ansv⟩
  | _, _, _, _, _ => none

/-- Line 58 of the script: the JavaScript object-literal template
`      { cat: "…", q: "…", options: …, answer: …, explain: "…" }`. -/
def jsEmit (r : QRecord) : Str :=
  "      \x7b cat: \"".toList ++ escapeQuotes r.cat ++
  "\", q: \"".toList ++ escapeQuotes r.q ++
  "\", options: ".toList ++ jsonDumpsVal r.options ++
  ", answer: ".toList ++ answerStr r.answer ++
  ", explain: \"".toList ++ escapeQuotes r.explain ++
  "\" \x7d".toList

/-- One iteration of the re-emitter loop (lines 48–59). -/
def jsEmitRecord (d : PyDict) : Option Str :=
  (toQRecord d).map jsEmit

/-- The whole re-emitter loop: `none` when some record would make the
Python loop raise. -/
def emitAll : List PyDict → Option (List Str)
  | [] => some []
  | d :: rest =>
    match jsEmitRecord d with
    | some line =>
      match emitAll rest with
      | some lines => some (line :: lines)
      | none => none
    | none => none

/-- Lines 27–42 of the script: repair and evaluate each fragment in order
(`i` is the 0-based enumeration index); parse failures are recorded as
`(i + 1, first 200 chars of the repaired fragment)`, matching the two
`print` calls, and the fragment is skipped. -/
def parseQuestionsAux : Nat → List Str → (List PyDict × List (Nat × Str))
  | _, [] => ([], [])
  | i, s :: rest =>
    let q := repairFragment s
    let (qs, errs) := parseQuestionsAux (i + 1) rest
    match pyEvalDict q with
    | some d => (d :: qs, errs)
    | none => (qs, (i + 1, q.take 200) :: errs)

/-- Line 69 of the script: `',\n'.join(js_questions) + ',\n'`. -/
def theBlock (lines : List Str) : Str :=
  sepJoin ",\n".toList lines ++ ",\n".toList

/-- Lines 62–74 of the script: read the destination as lines, insert the
block as one element at index 773, and write the lines back. -/
def spliceDest (dest block : Str) : Str :=
  pyWritelines (pyInsert 773 block (pyReadlines dest))

/-- Observable outcome of one run of the script.  `notFound` models the
`exit(1)` path (diagnostic printed, destination untouched); `crashed`
models an unhandled exception in the re-emitter loop (destination
untouched); `ok` carries the parsed-question count, the reported
per-fragment parse errors, and the rewritten destination content. -/
inductive RunOutcome where
  | notFound (finalDest : Str)
  | crashed (finalDest : Str)
  | ok (parsed : Nat) (errors : List (Nat × Str)) (finalDest : Str)
deriving DecidableEq, Repr

/-- Exit status of the process for each outcome: `exit(1)` on the missing
pattern, nonzero on an unhandled exception, `0` otherwise. -/
def RunOutcome.exitCode : RunOutcome → Nat
  | notFound _ => 1
  | crashed _ => 1
  | ok _ _ _ => 0

/-- The whole script, as a function from the two file contents to the
run's outcome. -/
def runScript (content dest : Str) : RunOutcome :=
  match extractArray content with
  | none => RunOutcome.notFound dest
  | some arrayContent =>
    let questionStrings := splitBoundary (pyStrip arrayContent)
    let parsed := parseQuestionsAux 0 questionStrings
    match emitAll parsed.1 with
    | none => RunOutcome.crashed dest
    | some jsQuestions =>
      RunOutcome.ok parsed.1.length parsed.2 (spliceDest dest (theBlock jsQuestions))

/-! ## Destination-format literal rules (modelled from the spec)

Modelled from the spec: the destination file itself is not part of the
sources, so the re-parse direction of the round-trip property uses the
destination format's literal rules as the spec states them —
backslash-quote unescaping in the quoted text fields, JSON parsing of the
array-valued fields, decimal parsing of a bare numeral. -/

/-- Value of one hexadecimal digit character. -/
def hexVal (c : Char) : Option Nat :=
  if 48 ≤ c.toNat ∧ c.toNat ≤ 57 then some (c.toNat - 48)
  else if 97 ≤ c.toNat ∧ c.toNat ≤ 102 then some (c.toNat - 87)
  else if 65 ≤ c.toNat ∧ c.toNat ≤ 70 then some (c.toNat - 55)
  else none

/-- Value of four hexadecimal digit characters, most significant first. -/
def hexVal4 (a b c d : Char) : Option Nat :=
  match hexVal a, hexVal b, hexVal c, hexVal d with
  | some x, some y, some z, some w => some (x * 4096 + y * 256 + z * 16 + w)
  | _, _, _, _ => none

/-- The character denoted by a JSON short escape `\e`. -/
def jsonUnescChar (e : Char) : Option Char :=
  if e = '"' then some '"'
  else if e = '\\' then some '\\'
  else if e = '/' then some '/'
  else if e = 'b' then some '\x08'
  else if e = 'f' then some '\x0c'
  else if e = 'n' then some '\n'
  else if e = 'r' then some '\r'
  else if e = 't' then some '\t'
  else none

/-- Combine a surrogate pair into the code point it denotes. -/
def surrPair (n m : Nat) : Nat :=
  0x10000 + (n - 0xD800) * 0x400 + (m - 0xDC00)

mutual

/-- Modelled from the spec: body of a JSON string (opening quote consumed),
per the JSON string rules — short escapes, `\uXXXX` escapes with surrogate
pairs recombined, all other characters verbatim, up to the closing quote. -/
def readJsonStr : Str → Option (Str × Str)
  | [] => none
  | c :: rest =>
    if c = '"' then some ([], rest)
    else if c = '\\' then readJsonEsc rest
    else (readJsonStr rest).map (fun p => (c :: p.1, p.2))

/-- Continuation of `readJsonStr` after a backslash. -/
def readJsonEsc : Str → Option (Str × Str)
  | [] => none
  | e :: rest =>
    if e = 'u' then readJsonU rest
    else (jsonUnescChar e).bind (fun ch =>
      (readJsonStr rest).map (fun p => (ch :: p.1, p.2)))

/-- Continuation of `readJsonStr` after `\u`: four hex digits, then either
a lone BMP code point or the high half of a surrogate pair. -/
def readJsonU : Str → Option (Str × Str)
  | a :: b :: c :: d :: rest2 =>
    (hexVal4 a b c d).bind (fun n =>
      if 0xD800 ≤ n ∧ n ≤ 0xDBFF then readJsonU2 n rest2
      else if 0xDC00 ≤ n ∧ n ≤ 0xDFFF then none
      else (readJsonStr rest2).map (fun p => (Char.ofNat n :: p.1, p.2)))
  | _ => none

/-- Continuation after a high surrogate: a `\uXXXX` low surrogate must
follow; the pair is recombined. -/
def readJsonU2 (n : Nat) : Str → Option (Str × Str)
  | bs :: u :: a :: b :: c :: d :: rest3 =>
    if bs = '\\' ∧ u = 'u' then
      (hexVal4 a b c d).bind (fun m =>
        if 0xDC00 ≤ m ∧ m ≤ 0xDFFF then
          (readJsonStr rest3).map (fun p => (Char.ofNat (surrPair n m) :: p.1, p.2))
        else none)
    else none
  | _ => none

end

mutual

/-- Modelled from the spec: a quoted text field of the destination format,
read with backslash-quote unescaping only — `\"` denotes a quote, every
other character (backslashes included) stands for itself, and an unescaped
quote closes the field. -/
def readJsStr : Str → Option (Str × Str)
  | [] => none
  | c :: rest =>
    if c = '"' then some ([], rest)
    else if c = '\\' then readJsStrEsc rest
    else (readJsStr rest).map (fun p => (c :: p.1, p.2))

/-- Continuation of `readJsStr` after a backslash. -/
def readJsStrEsc : Str → Option (Str × Str)
  | [] => none
  | e :: rest2 =>
    if e = '"' then (readJsStr rest2).map (fun p => ('"' :: p.1, p.2))
    else if e = '\\' then (readJsStrEsc rest2).map (fun p => ('\\' :: p.1, p.2))
    else (readJsStr rest2).map (fun p => ('\\' :: e :: p.1, p.2))

end

/-- Modelled from the spec: one JSON array element of the destination
format — a JSON string or a decimal integer. -/
def readJsonAtom (s : Str) : Option (PyAtom × Str) :=
  match s with
  | '"' :: rest => (readJsonStr rest).map (fun p => (PyAtom.str p.1, p.2))
  | _ => (parseDecInt s).map (fun p => (PyAtom.int p.1, p.2))

/-- Modelled from the spec: the elements of a JSON array (opening bracket
consumed), comma-separated with optional whitespace, up to `]`. -/
def readJsonAtomArrAux : Nat → Str → Option (List PyAtom × Str)
  | 0, _ => none
  | fuel + 1, s =>
    match skipWS s with
    | ']' :: r => some ([], r)
    | s1 =>
      match readJsonAtom s1 with
      | none => none
      | some (v, r1) =>
        match skipWS r1 with
        | ']' :: r3 => some ([v], r3)
        | ',' :: r3 =>
          match readJsonAtomArrAux fuel r3 with
          | some (vs, r4) => some (v :: vs, r4)
          | none => none
        | _ => none

/-- Modelled from the spec: a complete JSON array literal standing alone. -/
def readJsonArrLit (s : Str) : Option (List PyAtom) :=
  match s with
  | '[' :: r =>
    match readJsonAtomArrAux (s.length + 1) r with
    | some (l, rest) => if rest = [] then some l else none
    | none => none
  | _ => none

/-- Modelled from the spec: a complete bare decimal numeral standing alone. -/
def readBareInt (s : Str) : Option Int :=
  match parseDecInt s with
  | some (n, rest) => if rest = [] then some n else none
  | none => none

/-- `if pre is a prefix of s then the rest of s else none`. -/
def expectPre (pre s : Str) : Option Str :=
  if pre.isPrefixOf s then some (s.drop pre.length) else none

/-- Modelled from the spec: re-parse a re-emitted line under the
destination format's literal rules — the fixed template text around the
fields, backslash-quote unescaping for `cat`/`q`/`explain`, JSON parsing
for `options` and a list-valued `answer`, a bare decimal numeral
otherwise. -/
def jsParseLine (s : Str) : Option QRecord :=
  match expectPre "      \x7b cat: \"".toList s with
  | none => none
  | some s1 =>
    match readJsStr s1 with
    | none => none
    | some (cat, s2) =>
      match expectPre ", q: \"".toList s2 with
      | none => none
      | some s3 =>
        match readJsStr s3 with
        | none => none
        | some (qt, s4) =>
          match expectPre ", options: [".toList s4 with
          | none => none
          | some s5 =>
            match readJsonAtomArrAux (s5.length + 1) s5 with
            | none => none
            | some (opts, s6) =>
              match expectPre ", answer: ".toList s6 with
              | none => none
              | some s7 =>
                let ans : Option (PyVal × Str) :=
                  if s7.head? = some '[' then
                    (readJsonAtomArrAux (s7.tail.length + 1) s7.tail).map
                      (fun p => (PyVal.list p.1, p.2))
                  else (parseDecInt s7).map (fun p => (PyVal.atom (PyAtom.int p.1), p.2))
                match ans with
                | none => none
                | some (answer, s8) =>
                  match expectPre ", explain: \"".toList s8 with
                  | none => none
                  | some s9 =>
                    match readJsStr s9 with
                    | none => none
                    | some (ex, s10) =>
                      match expectPre " \x7d".toList s10 with
                      | none => none
                      | some s11 =>
                        if s11 = [] then some ⟨cat, qt, ex, PyVal.list opts, answer⟩
                        else none

/-! ## Source-format records (modelled from the spec)

Modelled from the spec: the source document `add_questions.py` is not part
of the sources; per the spec and the script's comment the records are
Python dicts with double-quoted keys and string values, one record per
block, separated by `},\n    {`. -/

/-- A double-quoted source string literal (fields are constrained so that
no escaping is needed). -/
def pySrcStr (s : Str) : Str :=
  '"' :: s ++ ['"']

/-- A source atom literal. -/
def pySrcAtom : PyAtom → Str
  | PyAtom.str s => pySrcStr s
  | PyAtom.int n => intDec n

/-- The element part of a source list literal. -/
def pySrcElems (l : List PyAtom) : Str :=
  sepJoin ", ".toList (l.map pySrcAtom)

/-- A source value literal. -/
def pySrcVal : PyVal → Str
  | PyVal.atom a => pySrcAtom a
  | PyVal.list l => '[' :: pySrcElems l ++ [']']

/-- One `"key": value` entry of a source record. -/
def pySrcField (kv : Str × PyVal) : Str :=
  '"' :: kv.1 ++ "\": ".toList ++ pySrcVal kv.2

/-- The inner entry list of a source record. -/
def pySrcFields (d : PyDict) : Str :=
  sepJoin ", ".toList (d.map pySrcField)

/-- The dict a well-formed source record evaluates to. -/
def recDict (r : QRecord) : PyDict :=
  [(catKey, PyVal.atom (PyAtom.str r.cat)), (qKey, PyVal.atom (PyAtom.str r.q)),
   (optionsKey, r.options), (answerKey, r.answer),
   (explainKey, PyVal.atom (PyAtom.str r.explain))]

/-- The innards (between the braces) of a source record fragment. -/
def pyEmitInnards (r : QRecord) : Str :=
  pySrcFields (recDict r)

/-- A complete source record fragment. -/
def pyEmitRecord (r : QRecord) : Str :=
  '{' :: pyEmitInnards r ++ ['}']

/-- The array body: record fragments joined by the `},\n    {` boundary. -/
def srcArrayBody (rs : List QRecord) : Str :=
  sepJoin ",\n    ".toList (rs.map pyEmitRecord)

/-- A character that may appear in a well-formed record's text: not a
quote, not a backslash, not a newline, and not a closing brace (the spec
notes that braces inside text break the fragment split). -/
def cleanChar (c : Char) : Bool :=
  !(c = '"') && !(c = '\\') && !(c = '\n') && !(c = '}')

def cleanText (s : Str) : Bool :=
  s.all cleanChar

def cleanAtom : PyAtom → Bool
  | PyAtom.str s => cleanText s
  | PyAtom.int _ => true

def cleanVal : PyVal → Bool
  | PyVal.atom a => cleanAtom a
  | PyVal.list l => l.all cleanAtom

/-- Well-formedness of a record for the source format: all text is clean. -/
def cleanRecord (r : QRecord) : Bool :=
  cleanText r.cat && cleanText r.q && cleanText r.explain &&
  cleanVal r.options && cleanVal r.answer

/-- Fuel weight of a value in a dict entry: list values spend fuel on
their elements. -/
def pyValCount : PyVal → Nat
  | PyVal.atom _ => 0
  | PyVal.list l => l.length + 1

/-- A record-chain string: the text of `srcArrayBody` after its leading `{`. -/
def innChain : QRecord → List QRecord → Str
  | r, [] => pyEmitInnards r ++ ['}']
  | r, r2 :: rest =>
    pyEmitInnards r ++ ('}' :: ',' :: '\n' :: ' ' :: ' ' :: ' ' :: ' ' :: '{' :: innChain r2 rest)

/-- The fragments `splitBoundary` recovers from a chain, before brace repair. -/
def chainPieces : QRecord → List QRecord → List Str
  | r, [] => [pyEmitInnards r ++ ['}']]
  | r, r2 :: rest => pyEmitInnards r :: chainPieces r2 rest

/-- `chainPieces` with the scanner's pending accumulator prepended to the head. -/
def chainOut (acc : Str) (r : QRecord) (rs : List QRecord) : List Str :=
  match chainPieces r rs with
  | [] => []
  | p :: ps => (acc.reverse ++ p) :: ps

/-- `1` when the content ends mid-line (a nonempty file whose last character
is not a newline), else `0`: the extra line `readlines` reports beyond the
newline count. -/
def tailPartial (s : Str) : Nat :=
  match s.getLast? with
  | some c => if c = '\n' then 0 else 1
  | none => 0

/-- Modelled from the spec: the repair as the spec words it — re-add a
leading `\x7b` if the stripped fragment does not start with one, a trailing
`\x7d` if it does not end with one. -/
def repairSpec (s : Str) : Str :=
  (if (pyStrip s).head? = some '{' then pyStrip s else '{' :: pyStrip s) ++
    (if (pyStrip s).getLast? = some '}' then [] else ['}'])

/-- A sample well-formed record with a single-index answer. -/
def sampleRecA : QRecord :=
  ⟨"A".toList, "Q1?".toList, "E1".toList,
    PyVal.list [PyAtom.str "x".toList, PyAtom.str "y".toList],
    PyVal.atom (PyAtom.int 0)⟩

/-- A sample well-formed record with a multiple-index answer. -/
def sampleRecB : QRecord :=
  ⟨"B".toList, "Q2?".toList, "E2".toList,
    PyVal.list [PyAtom.str "m".toList, PyAtom.str "n".toList],
    PyVal.list [PyAtom.int 0, PyAtom.int 0]⟩

/-- A destination of 774 one-character lines. -/
def c3dest : Str := List.replicate 774 '\n'

/-- A source document with one well-formed record and one malformed
fragment. -/
def c5content : Str :=
  ("test5_questions = [\n\x7b\"cat\": \"A\", \"q\": \"B\", \"options\": [\"x\"], " ++
   "\"answer\": 0, \"explain\": \"C\"\x7d,\n    \x7bbad\x7d\n]").toList

/-- The array body the extractor finds in `c5content`. -/
def c5body : Str :=
  ("\n\x7b\"cat\": \"A\", \"q\": \"B\", \"options\": [\"x\"], " ++
   "\"answer\": 0, \"explain\": \"C\"\x7d,\n    \x7bbad\x7d").toList

/-- The destination used in the C5 witness. -/
def c5dest : Str := "L1\n".toList

/-- The single re-emitted line the surviving record produces. -/
def c5line : Str :=
  "      \x7b cat: \"A\", q: \"B\", options: [\"x\"], answer: 0, explain: \"C\" \x7d".toList

/-! ## Lemmas: quote escaping -/

/-- The per-character escaping map the spec describes: a quote becomes
backslash-quote (exactly one backslash); every other character is left
unaltered. -/
def specEscChar (c : Char) : Str :=
  if c = '"' then ['\\', '"'] else [c]

theorem singleton_isPrefixOf (a c : Char) (rest : Str) :
    [a].isPrefixOf (c :: rest) = (a == c) := by
  simp [List.isPrefixOf]

theorem pyReplaceF_quote (s : Str) :
    ∀ fuel, pyReplaceF ['"'] ['\\', '"'] (fuel + s.length + 1) s =
      s.flatMap specEscChar := by
  induction s with
  | nil => intro fuel; rfl
  | cons c rest ih =>
    intro fuel
    have hshape : fuel + (c :: rest).length + 1 = (fuel + rest.length + 1) + 1 := by
      simp only [List.length_cons]; omega
    rw [hshape]
    show (if ['"'] ≠ [] ∧ ['"'].isPrefixOf (c :: rest) then
        ['\\', '"'] ++ pyReplaceF ['"'] ['\\', '"'] (fuel + rest.length + 1) ((c :: rest).drop 1)
      else c :: pyReplaceF ['"'] ['\\', '"'] (fuel + rest.length + 1) rest) =
      (c :: rest).flatMap specEscChar
    rw [singleton_isPrefixOf]
    by_cases hc : c = '"'
    · subst hc
      simp only [ne_eq, reduceCtorEq, not_false_eq_true, beq_self_eq_true, and_self, if_true,
        List.drop_succ_cons, List.drop_zero]
      rw [ih fuel]
      simp [specEscChar]
    · have hb : ('"' == c) = false := by
        simp [beq_eq_false_iff_ne, ne_comm.mp hc]
      rw [hb]
      simp only [ne_eq, reduceCtorEq, not_false_eq_true, true_and, Bool.false_eq_true, if_false]
      rw [ih fuel]
      simp [specEscChar, hc]

/-- `escapeQuotes` replaces each quote by backslash-quote and leaves every
other character unaltered. -/
theorem escapeQuotes_eq_flatMap (s : Str) :
    escapeQuotes s = s.flatMap specEscChar := by
  have h := pyReplaceF_quote s 0
  rw [Nat.zero_add] at h
  simpa [escapeQuotes, pyReplace] using h

/-! ## Lemmas: decimal numerals -/

theorem takeWhile_append_of_all {p : Char → Bool} {xs : Str} (ys : Str)
    (h : ∀ c ∈ xs, p c = true) :
    (xs ++ ys).takeWhile p = xs ++ ys.takeWhile p := by
  induction xs with
  | nil => simp
  | cons c rest ih =>
    have hc := h c (by simp)
    simp only [List.cons_append, List.takeWhile_cons, hc, if_true]
    rw [ih (fun x hx => h x (by simp [hx]))]

theorem dropWhile_append_of_all {p : Char → Bool} {xs : Str} (ys : Str)
    (h : ∀ c ∈ xs, p c = true) :
    (xs ++ ys).dropWhile p = ys.dropWhile p := by
  induction xs with
  | nil => simp
  | cons c rest ih =>
    have hc := h c (by simp)
    simp only [List.cons_append, List.dropWhile_cons, hc, if_true]
    exact ih (fun x hx => h x (by simp [hx]))

theorem toDigitChar_isDigit {d : Nat} (h : d < 10) :
    isDigitCh (toDigitChar d) = true := by
  interval_cases d <;> decide

theorem toDigitChar_toNat {d : Nat} (h : d < 10) :
    (toDigitChar d).toNat = 48 + d := by
  interval_cases d <;> decide

theorem natDec_all_digits (n : Nat) : ∀ c ∈ natDec n, isDigitCh c = true := by
  intro c hc
  rw [natDec] at hc
  split at hc
  · simp at hc
    subst hc
    decide
  · simp only [List.mem_map, List.mem_reverse] at hc
    obtain ⟨d, hd, he⟩ := hc
    have : d < 10 := Nat.digits_lt_base (by norm_num) hd
    subst he
    exact toDigitChar_isDigit this

theorem foldl_digits_rev (l : List Nat) (h : ∀ d ∈ l, d < 10) :
    ∀ a : Nat, (l.reverse.map toDigitChar).foldl
      (fun a c => a * 10 + (c.toNat - 48)) a =
      a * 10 ^ l.length + Nat.ofDigits 10 l := by
  induction l with
  | nil => intro a; simp [Nat.ofDigits]
  | cons d rest ih =>
    intro a
    have hd : d < 10 := h d (by simp)
    simp only [List.reverse_cons, List.map_append, List.foldl_append, List.map_cons,
      List.map_nil, List.foldl_cons, List.foldl_nil]
    rw [ih (fun x hx => h x (by simp [hx])) a]
    rw [toDigitChar_toNat hd]
    simp only [Nat.ofDigits_cons, List.length_cons]
    have : 48 + d - 48 = d := by omega
    rw [this]
    ring

theorem foldl_natDec (n : Nat) :
    (natDec n).foldl (fun a c => a * 10 + (c.toNat - 48)) 0 = n := by
  rw [natDec]
  split
  · simp_all
  · rw [foldl_digits_rev (Nat.digits 10 n) (fun d hd => Nat.digits_lt_base (by norm_num) hd) 0]
    simp [Nat.ofDigits_digits]

theorem natDec_ne_nil (n : Nat) : natDec n ≠ [] := by
  rw [natDec]
  split
  · simp
  · rename_i hn
    intro hcon
    have h10 : Nat.digits 10 n ≠ [] := Nat.digits_ne_nil_iff_ne_zero.mpr hn
    simp_all

/-- Reading back the decimal rendering of a natural number, with anything
not starting with a digit after it. -/
theorem parseDecNat_natDec (n : Nat) (rest : Str)
    (h : ∀ c, rest.head? = some c → isDigitCh c = false) :
    parseDecNat (natDec n ++ rest) = some (n, rest) := by
  have hall := natDec_all_digits n
  have htw : rest.takeWhile isDigitCh = [] := by
    cases rest with
    | nil => rfl
    | cons c rs =>
      have := h c rfl
      simp [List.takeWhile_cons, this]
  have hdw : rest.dropWhile isDigitCh = rest := by
    cases rest with
    | nil => rfl
    | cons c rs =>
      have := h c rfl
      simp [List.dropWhile_cons, this]
  rw [parseDecNat]
  rw [takeWhile_append_of_all rest hall, dropWhile_append_of_all rest hall,
    htw, hdw]
  simp only [List.append_nil]
  rw [if_neg (natDec_ne_nil n)]
  rw [foldl_natDec]

/-- Reading back the decimal rendering of an integer. -/
theorem parseDecInt_intDec (n : Int) (rest : Str)
    (h : ∀ c, rest.head? = some c → isDigitCh c = false) :
    parseDecInt (intDec n ++ rest) = some (n, rest) := by
  rw [intDec]
  split
  · rename_i hneg
    simp only [List.cons_append]
    rw [parseDecInt]
    rw [parseDecNat_natDec n.natAbs rest h]
    simp only [Option.map_some']
    congr 2
    omega
  · rename_i hpos
    rcases hnd : natDec n.natAbs with _ | ⟨c, rs⟩
    · exact absurd hnd (natDec_ne_nil n.natAbs)
    · have hcdig : isDigitCh c = true := by
        have := natDec_all_digits n.natAbs c (by simp [hnd])
        exact this
      have hcne : c ≠ '-' := by
        intro hcon
        subst hcon
        simp [isDigitCh] at hcdig
      rw [parseDecInt.eq_def]
      split
      · rename_i heq
        injection heq with h1 h2
        exact absurd h1 hcne
      · rw [show c :: rs ++ rest = (c :: rs) ++ rest from rfl, ← hnd,
          parseDecNat_natDec n.natAbs rest h]
        simp only [Option.map_some', Option.some.injEq, Prod.mk.injEq]
        exact ⟨by omega, trivial⟩

/-- A bare numeral standing alone reads back as the integer it denotes. -/
theorem readBareInt_intDec (n : Int) : readBareInt (intDec n) = some n := by
  rw [readBareInt]
  have h := parseDecInt_intDec n [] (by intro c hc; simp at hc)
  rw [List.append_nil] at h
  rw [h]
  simp

/-! ## Lemmas: JSON string escaping round-trip -/

theorem hexVal_toHexChar {d : Nat} (h : d < 16) : hexVal (toHexChar d) = some d := by
  interval_cases d <;> decide

theorem hexVal4_hex4 {n : Nat} (h : n < 0x10000) :
    hexVal4 (toHexChar (n / 4096 % 16)) (toHexChar (n / 256 % 16))
      (toHexChar (n / 16 % 16)) (toHexChar (n % 16)) = some n := by
  rw [hexVal4]
  rw [hexVal_toHexChar (Nat.mod_lt _ (by norm_num)),
    hexVal_toHexChar (Nat.mod_lt _ (by norm_num)),
    hexVal_toHexChar (Nat.mod_lt _ (by norm_num)),
    hexVal_toHexChar (Nat.mod_lt _ (by norm_num))]
  simp only [Option.some.injEq]
  omega

theorem char_valid (c : Char) :
    c.toNat < 0xD800 ∨ (0xDFFF < c.toNat ∧ c.toNat < 0x110000) :=
  c.valid

theorem char_toNat_ofNat {n : Nat} (h : n.isValidChar) :
    (Char.ofNat n).toNat = n := by
  simp [Char.ofNat, h, Char.toNat, Char.ofNatAux, UInt32.toNat, BitVec.toNat_ofNat]

theorem char_ofNat_toNat (c : Char) : Char.ofNat c.toNat = c :=
  Char.ofNat_toNat c

theorem readJsonStr_quote (rest : Str) : readJsonStr ('"' :: rest) = some ([], rest) := by
  rw [readJsonStr, if_pos rfl]

theorem readJsonStr_bs (rest : Str) : readJsonStr ('\\' :: rest) = readJsonEsc rest := by
  rw [readJsonStr, if_neg (by decide), if_pos rfl]

theorem readJsonStr_plain {c : Char} (h1 : c ≠ '"') (h2 : c ≠ '\\') (rest : Str) :
    readJsonStr (c :: rest) = (readJsonStr rest).map (fun p => (c :: p.1, p.2)) := by
  rw [readJsonStr, if_neg h1, if_neg h2]

theorem readJsonEsc_short {e : Char} (hu : e ≠ 'u') (rest : Str) :
    readJsonEsc (e :: rest) = (jsonUnescChar e).bind (fun ch =>
      (readJsonStr rest).map (fun p => (ch :: p.1, p.2))) := by
  rw [readJsonEsc, if_neg hu]

/-- Reading back the `json.dumps` escape of one character. -/
theorem readJsonStr_escChar (c : Char) (rest : Str) :
    readJsonStr (jsonEscChar c ++ rest) =
      (readJsonStr rest).map (fun p => (c :: p.1, p.2)) := by
  have hval : c.toNat.isValidChar := by
    rcases char_valid c with h | h
    · exact Or.inl h
    · exact Or.inr ⟨h.1, h.2⟩
  rw [jsonEscChar]
  split_ifs with h1 h2 h3 h4 h5 h6 h7 h8 h9
  · subst h1
    rw [List.cons_append, List.cons_append, readJsonStr_bs,
      readJsonEsc_short (by decide), show jsonUnescChar '"' = some '"' from by decide]
    rfl
  · subst h2
    rw [List.cons_append, List.cons_append, readJsonStr_bs,
      readJsonEsc_short (by decide), show jsonUnescChar '\\' = some '\\' from by decide]
    rfl
  · subst h3
    rw [List.cons_append, List.cons_append, readJsonStr_bs,
      readJsonEsc_short (by decide), show jsonUnescChar 'b' = some '\x08' from by decide]
    rfl
  · subst h4
    rw [List.cons_append, List.cons_append, readJsonStr_bs,
      readJsonEsc_short (by decide), show jsonUnescChar 'f' = some '\x0c' from by decide]
    rfl
  · subst h5
    rw [List.cons_append, List.cons_append, readJsonStr_bs,
      readJsonEsc_short (by decide), show jsonUnescChar 'n' = some '\n' from by decide]
    rfl
  · subst h6
    rw [List.cons_append, List.cons_append, readJsonStr_bs,
      readJsonEsc_short (by decide), show jsonUnescChar 'r' = some '\r' from by decide]
    rfl
  · subst h7
    rw [List.cons_append, List.cons_append, readJsonStr_bs,
      readJsonEsc_short (by decide), show jsonUnescChar 't' = some '\t' from by decide]
    rfl
  · -- a `\uXXXX` escape of a BMP code point
    have hns : ¬ (0xD800 ≤ c.toNat ∧ c.toNat ≤ 0xDBFF) := by
      rcases char_valid c with h | h <;> omega
    have hns2 : ¬ (0xDC00 ≤ c.toNat ∧ c.toNat ≤ 0xDFFF) := by
      rcases char_valid c with h | h <;> omega
    rw [hex4]
    simp only [List.cons_append, List.nil_append]
    rw [readJsonStr_bs, readJsonEsc, if_pos rfl, readJsonU,
      hexVal4_hex4 h9]
    rw [Option.some_bind]
    rw [if_neg hns, if_neg hns2, char_ofNat_toNat]
  · -- a surrogate-pair escape of a code point above the BMP
    have hrange : 0x10000 ≤ c.toNat ∧ c.toNat < 0x110000 := by
      rcases char_valid c with h | h <;> omega
    have hhi : 0xD800 ≤ 0xD800 + (c.toNat - 0x10000) / 0x400 ∧
        0xD800 + (c.toNat - 0x10000) / 0x400 ≤ 0xDBFF := by
      constructor
      · omega
      · have : (c.toNat - 0x10000) / 0x400 < 0x400 := by omega
        omega
    have hlo : 0xDC00 ≤ 0xDC00 + (c.toNat - 0x10000) % 0x400 ∧
        0xDC00 + (c.toNat - 0x10000) % 0x400 ≤ 0xDFFF := by
      constructor
      · omega
      · have : (c.toNat - 0x10000) % 0x400 < 0x400 := Nat.mod_lt _ (by norm_num)
        omega
    rw [hex4, hex4]
    simp only [List.cons_append, List.nil_append, List.append_assoc]
    rw [readJsonStr_bs, readJsonEsc, if_pos rfl, readJsonU,
      hexVal4_hex4 (by omega)]
    rw [Option.some_bind]
    rw [if_pos hhi, readJsonU2, if_pos ⟨rfl, rfl⟩, hexVal4_hex4 (by omega)]
    rw [Option.some_bind]
    rw [if_pos hlo]
    have hcomb : surrPair (0xD800 + (c.toNat - 0x10000) / 0x400)
        (0xDC00 + (c.toNat - 0x10000) % 0x400) = c.toNat := by
      rw [surrPair]
      omega
    rw [hcomb, char_ofNat_toNat]
  · -- a printable ASCII character other than the specials, kept verbatim
    rw [List.cons_append, List.nil_append, readJsonStr_plain h1 h2]

/-- Reading back the body of a `json.dumps` string. -/
theorem readJsonStr_dumps (s : Str) (rest : Str) :
    readJsonStr (s.flatMap jsonEscChar ++ '"' :: rest) = some (s, rest) := by
  induction s with
  | nil => simp [readJsonStr_quote]
  | cons c cs ih =>
    rw [List.flatMap_cons, List.append_assoc, readJsonStr_escChar, ih]
    rfl

/-- Reading back `json.dumps` of an atom, given that what follows does not
start with a digit. -/
theorem readJsonAtom_dumps (a : PyAtom) (rest : Str)
    (h : ∀ c, rest.head? = some c → isDigitCh c = false) :
    readJsonAtom (jsonDumpsAtom a ++ rest) = some (a, rest) := by
  cases a with
  | str s =>
    rw [jsonDumpsAtom, jsonQuoteStr]
    rw [show ('"' :: s.flatMap jsonEscChar ++ ['"']) ++ rest =
      '"' :: (s.flatMap jsonEscChar ++ '"' :: rest) by simp]
    rw [readJsonAtom, readJsonStr_dumps]
    rfl
  | int n =>
    rw [jsonDumpsAtom]
    rcases hnd : intDec n with _ | ⟨c, rs⟩
    · exfalso
      rw [intDec] at hnd
      split at hnd
      · exact absurd hnd (by simp [natDec_ne_nil n.natAbs])
      · exact natDec_ne_nil n.natAbs hnd
    · have hcq : c ≠ '"' := by
        rw [intDec] at hnd
        split at hnd
        · injection hnd with h1 h2
          subst h1
          decide
        · have := natDec_all_digits n.natAbs c (by simp [hnd])
          intro hcon
          subst hcon
          simp [isDigitCh] at this
      rw [readJsonAtom.eq_def]
      split
      · rename_i heq
        injection heq with h1 h2
        exact absurd h1 hcq
      · rw [show c :: rs ++ rest = (c :: rs) ++ rest from rfl, ← hnd,
          parseDecInt_intDec n rest h]
        rfl

/-! ## Lemmas: JSON arrays -/

theorem skipWS_space (s : Str) : skipWS (' ' :: s) = skipWS s := by
  simp [skipWS, List.dropWhile_cons, isPySpace]

theorem skipWS_cons {c : Char} (h : isPySpace c = false) (s : Str) :
    skipWS (c :: s) = c :: s := by
  simp [skipWS, List.dropWhile_cons, h]

theorem isDigitCh_not_space {c : Char} (h : isDigitCh c = true) :
    isPySpace c = false := by
  have h1 : c ≠ ' ' := by intro e; subst e; revert h; decide
  have h2 : c ≠ '\t' := by intro e; subst e; revert h; decide
  have h3 : c ≠ '\n' := by intro e; subst e; revert h; decide
  have h4 : c ≠ '\r' := by intro e; subst e; revert h; decide
  have h5 : c ≠ '\x0b' := by intro e; subst e; revert h; decide
  have h6 : c ≠ '\x0c' := by intro e; subst e; revert h; decide
  simp [isPySpace, h1, h2, h3, h4, h5, h6]

theorem intDec_head (n : Int) :
    ∃ c rs, intDec n = c :: rs ∧ (isDigitCh c = true ∨ c = '-') := by
  rw [intDec]
  split
  · exact ⟨'-', natDec n.natAbs, rfl, Or.inr rfl⟩
  · rcases hnd : natDec n.natAbs with _ | ⟨c, rs⟩
    · exact absurd hnd (natDec_ne_nil n.natAbs)
    · exact ⟨c, rs, rfl, Or.inl (natDec_all_digits n.natAbs c (by simp [hnd]))⟩

/-- Heads that a dumped atom can start with are neither whitespace nor a
closing bracket. -/
theorem jsonDumpsAtom_head (a : PyAtom) :
    ∃ c rs, jsonDumpsAtom a = c :: rs ∧ isPySpace c = false ∧ c ≠ ']' := by
  cases a with
  | str s => exact ⟨'"', _, rfl, by decide, by decide⟩
  | int n =>
    obtain ⟨c, rs, he, hd⟩ := intDec_head n
    refine ⟨c, rs, he, ?_, ?_⟩
    · rcases hd with h | h
      · exact isDigitCh_not_space h
      · subst h; decide
    · rcases hd with h | h
      · intro hcon; subst hcon; simp [isDigitCh] at h
      · subst h; decide

theorem readJsonAtomArrAux_ws (fuel : Nat) (s : Str) :
    readJsonAtomArrAux fuel (' ' :: s) = readJsonAtomArrAux fuel s := by
  cases fuel with
  | zero => rfl
  | succ f => rw [readJsonAtomArrAux, readJsonAtomArrAux, skipWS_space]

/-- Reading back the element list of a `json.dumps` array, for any fuel
exceeding the element count. -/
theorem readJsonAtomArrAux_dumps (l : List PyAtom) :
    ∀ (fuel : Nat), l.length < fuel → ∀ rest : Str,
      readJsonAtomArrAux fuel (jsonArrBody l ++ ']' :: rest) = some (l, rest) := by
  induction l with
  | nil =>
    intro fuel hf rest
    cases fuel with
    | zero => omega
    | succ f =>
      rw [readJsonAtomArrAux, jsonArrBody]
      simp only [List.map_nil, sepJoin, List.nil_append]
      rfl
  | cons a t ih =>
    intro fuel hf rest
    cases fuel with
    | zero => omega
    | succ f =>
      obtain ⟨c, rs, he, hws, hbr⟩ := jsonDumpsAtom_head a
      cases t with
      | nil =>
        rw [readJsonAtomArrAux, jsonArrBody]
        simp only [List.map_cons, List.map_nil, sepJoin]
        rw [he, List.cons_append, skipWS_cons hws]
        split
        · rename_i r0 heq
          injection heq with h1 h2
          exact absurd h1 hbr
        · rw [← List.cons_append, ← he,
            readJsonAtom_dumps a (']' :: rest)
              (by intro x hx; injection hx with hx; subst hx; decide)]
          rfl
      | cons b t2 =>
        rw [readJsonAtomArrAux, jsonArrBody]
        simp only [List.map_cons, sepJoin]
        rw [he]
        simp only [List.cons_append, List.append_assoc]
        rw [skipWS_cons hws]
        split
        · rename_i r0 heq
          injection heq with h1 h2
          exact absurd h1 hbr
        · rw [← List.cons_append, ← he]
          rw [show ", ".toList ++ (sepJoin ", ".toList (jsonDumpsAtom b :: t2.map jsonDumpsAtom) ++ ']' :: rest) =
            ',' :: ' ' :: (sepJoin ", ".toList (jsonDumpsAtom b :: t2.map jsonDumpsAtom) ++ ']' :: rest) from rfl]
          rw [readJsonAtom_dumps a _
            (by intro x hx; injection hx with hx; subst hx; decide)]
          simp only []
          rw [skipWS_cons (by decide)]
          have hrec := ih f (by simp at hf ⊢; omega) rest
          rw [jsonArrBody] at hrec
          simp only [List.map_cons] at hrec
          have hx : readJsonAtomArrAux f
              (' ' :: (sepJoin ", ".toList (jsonDumpsAtom b :: t2.map jsonDumpsAtom) ++ ']' :: rest)) =
              some (b :: t2, rest) := by
            rw [readJsonAtomArrAux_ws]
            exact hrec
          simp only []
          rw [hx]

theorem jsonDumpsAtom_ne_nil (a : PyAtom) : jsonDumpsAtom a ≠ [] := by
  obtain ⟨c, rs, he, _, _⟩ := jsonDumpsAtom_head a
  simp [he]

theorem length_jsonArrBody (l : List PyAtom) : l.length ≤ (jsonArrBody l).length := by
  induction l with
  | nil => simp [jsonArrBody, sepJoin]
  | cons a t ih =>
    cases t with
    | nil =>
      have := jsonDumpsAtom_ne_nil a
      rw [jsonArrBody]
      simp only [List.map_cons, List.map_nil, sepJoin, List.length_cons, List.length_nil]
      have : 0 < (jsonDumpsAtom a).length := List.length_pos.mpr this
      omega
    | cons b t2 =>
      rw [jsonArrBody]
      simp only [List.map_cons, sepJoin]
      rw [jsonArrBody] at ih
      simp only [List.map_cons] at ih
      have h1 : 0 < (jsonDumpsAtom a).length :=
        List.length_pos.mpr (jsonDumpsAtom_ne_nil a)
      simp only [List.length_append, List.length_cons]
      simp only [List.length_cons] at ih
      have : ", ".toList.length = 2 := by decide
      omega

/-- `json.dumps` of a list reads back as the same list under JSON array
parsing. -/
theorem readJsonArrLit_dumps (l : List PyAtom) :
    readJsonArrLit (jsonDumpsAtomList l) = some l := by
  rw [jsonDumpsAtomList, List.cons_append, readJsonArrLit.eq_1]
  have hlen : l.length < ('[' :: (jsonArrBody l ++ [']'])).length + 1 := by
    have := length_jsonArrBody l
    simp only [List.length_cons, List.length_append, List.length_nil]
    omega
  rw [show jsonArrBody l ++ [']'] = jsonArrBody l ++ ']' :: ([] : Str) from rfl]
  rw [readJsonAtomArrAux_dumps l _ hlen []]
  rfl

/-! ## Lemmas: quote-escaped text fields round-trip -/

theorem readJsStr_quote (rest : Str) : readJsStr ('"' :: rest) = some ([], rest) := by
  rw [readJsStr, if_pos rfl]

theorem readJsStr_bs (rest : Str) : readJsStr ('\\' :: rest) = readJsStrEsc rest := by
  rw [readJsStr, if_neg (by decide), if_pos rfl]

theorem readJsStr_plain {c : Char} (h1 : c ≠ '"') (h2 : c ≠ '\\') (rest : Str) :
    readJsStr (c :: rest) = (readJsStr rest).map (fun p => (c :: p.1, p.2)) := by
  rw [readJsStr, if_neg h1, if_neg h2]

theorem readJsStrEsc_quote (rest : Str) :
    readJsStrEsc ('"' :: rest) = (readJsStr rest).map (fun p => ('"' :: p.1, p.2)) := by
  rw [readJsStrEsc, if_pos rfl]

/-- A backslash-free text, quote-escaped by the script, reads back under
backslash-quote unescaping. -/
theorem readJsStr_escapeQuotes {s : Str} (h : '\\' ∉ s) (rest : Str) :
    readJsStr (escapeQuotes s ++ '"' :: rest) = some (s, rest) := by
  rw [escapeQuotes_eq_flatMap]
  induction s with
  | nil => simp [readJsStr_quote]
  | cons c cs ih =>
    have hcs : '\\' ∉ cs := fun hx => h (by simp [hx])
    have hc : c ≠ '\\' := fun hx => h (by simp [hx])
    rw [List.flatMap_cons, List.append_assoc, specEscChar]
    by_cases hq : c = '"'
    · subst hq
      rw [if_pos rfl]
      simp only [List.cons_append, List.nil_append]
      rw [readJsStr_bs, readJsStrEsc_quote, ih hcs]
      rfl
    · rw [if_neg hq]
      simp only [List.cons_append, List.nil_append]
      rw [readJsStr_plain hq hc, ih hcs]
      rfl

theorem expectPre_append (p rest : Str) : expectPre p (p ++ rest) = some rest := by
  rw [expectPre, if_pos]
  · congr 1
    exact List.drop_left p rest
  · rw [List.isPrefixOf_iff_prefix]
    exact ⟨rest, rfl⟩


set_option maxHeartbeats 1000000 in
/-- Round-trip for one re-emitted record line: re-parsing under the
destination format's literal rules recovers the record. -/
theorem jsParseLine_jsEmit (r : QRecord) (os : List PyAtom)
    (hbs1 : '\\' ∉ r.cat) (hbs2 : '\\' ∉ r.q) (hbs3 : '\\' ∉ r.explain)
    (hopt : r.options = PyVal.list os)
    (hans : (∃ n, r.answer = PyVal.atom (PyAtom.int n)) ∨
            (∃ la, r.answer = PyVal.list la)) :
    jsParseLine (jsEmit r) = some r := by
  rw [jsEmit, jsParseLine]
  rw [List.append_assoc, List.append_assoc, List.append_assoc, List.append_assoc,
    List.append_assoc, List.append_assoc, List.append_assoc, List.append_assoc,
    List.append_assoc]
  rw [expectPre_append]
  simp only []
  rw [show ("\", q: \"".toList :Str) = '"' :: ", q: \"".toList from rfl,
    List.cons_append, readJsStr_escapeQuotes hbs1]
  simp only []
  rw [expectPre_append]
  simp only []
  rw [show ("\", options: ".toList : Str) = '"' :: ", options: ".toList from rfl,
    List.cons_append, readJsStr_escapeQuotes hbs2]
  simp only []
  rw [hopt]
  set Y : Str := ", answer: ".toList ++
    (answerStr r.answer ++ (", explain: \"".toList ++ (escapeQuotes r.explain ++ "\" \x7d".toList))) with hY
  rw [show (jsonDumpsVal (PyVal.list os) : Str) = '[' :: jsonArrBody os ++ [']'] from rfl]
  rw [show ('[' :: jsonArrBody os ++ [']']) ++ Y = '[' :: jsonArrBody os ++ (']' :: Y) from by
    rw [List.append_assoc]; rfl]
  rw [show (", options: ".toList : Str) ++ ('[' :: jsonArrBody os ++ (']' :: Y)) =
    ", options: [".toList ++ (jsonArrBody os ++ ']' :: Y) from rfl]
  rw [expectPre_append]
  simp only []
  have hlen : os.length < (jsonArrBody os ++ ']' :: Y).length + 1 := by
    have := length_jsonArrBody os
    simp only [List.length_append, List.length_cons]
    omega
  rw [readJsonAtomArrAux_dumps os _ hlen Y]
  simp only []
  rw [hY]
  rw [expectPre_append]
  simp only []
  have htail : ∀ s9, (s9 = escapeQuotes r.explain ++ "\" \x7d".toList) →
      (match readJsStr s9 with
        | none => none
        | some (ex, s10) =>
          match expectPre " \x7d".toList s10 with
          | none => none
          | some s11 =>
            if s11 = [] then some (⟨r.cat, r.q, ex, PyVal.list os, r.answer⟩ : QRecord)
            else none) = some (⟨r.cat, r.q, r.explain, PyVal.list os, r.answer⟩ : QRecord) := by
    intro s9 hs9
    subst hs9
    rw [show ("\" \x7d".toList : Str) = '"' :: " \x7d".toList from rfl,
      readJsStr_escapeQuotes hbs3]
    simp only []
    rw [show expectPre " \x7d".toList " \x7d".toList = some [] from rfl]
    simp
  have hrec : (⟨r.cat, r.q, r.explain, PyVal.list os, r.answer⟩ : QRecord) = r := by
    rcases r with ⟨c1, q1, e1, o1, a1⟩
    simp only at hopt ⊢
    rw [hopt]
  rcases hans with ⟨n, ha⟩ | ⟨la, ha⟩
  · rw [ha]
    rw [show answerStr (PyVal.atom (PyAtom.int n)) = intDec n from rfl]
    obtain ⟨c, rs, he, hd⟩ := intDec_head n
    have hc1 : c ≠ '[' := by
      rcases hd with h | h
      · intro e; subst e; simp [isDigitCh] at h
      · subst h; decide
    rw [he, List.cons_append]
    rw [show ((c :: (rs ++ (", explain: \"".toList ++
        (escapeQuotes r.explain ++ "\" \x7d".toList)))).head? : Option Char) = some c from rfl]
    rw [if_neg (by simpa using hc1)]
    rw [show c :: (rs ++ (", explain: \"".toList ++ (escapeQuotes r.explain ++ "\" \x7d".toList))) =
      (c :: rs) ++ (", explain: \"".toList ++ (escapeQuotes r.explain ++ "\" \x7d".toList)) from rfl,
      ← he, parseDecInt_intDec n _ (by intro x hx; injection hx with hx; subst hx; decide)]
    simp only [Option.map_some']
    rw [expectPre_append]
    simp only []
    rw [← ha]
    exact (htail _ rfl).trans (congrArg some hrec)
  · rw [ha]
    rw [show answerStr (PyVal.list la) = '[' :: jsonArrBody la ++ [']'] from rfl]
    rw [show ('[' :: jsonArrBody la ++ [']']) ++
        (", explain: \"".toList ++ (escapeQuotes r.explain ++ "\" \x7d".toList)) =
      '[' :: (jsonArrBody la ++ ']' ::
        (", explain: \"".toList ++ (escapeQuotes r.explain ++ "\" \x7d".toList))) from by
      rw [List.append_assoc]; rfl]
    rw [if_pos (by rfl)]
    rw [show (('[' : Char) :: (jsonArrBody la ++ ']' ::
        (", explain: \"".toList ++ (escapeQuotes r.explain ++ "\" \x7d".toList)))).tail =
      jsonArrBody la ++ ']' ::
        (", explain: \"".toList ++ (escapeQuotes r.explain ++ "\" \x7d".toList)) from rfl]
    rw [readJsonAtomArrAux_dumps la _ (by
      have := length_jsonArrBody la
      simp only [List.length_append, List.length_cons]
      omega) _]
    simp only [Option.map_some']
    rw [expectPre_append]
    simp only []
    rw [← ha]
    exact (htail _ rfl).trans (congrArg some hrec)

/-! ## Lemmas: evaluating well-formed source fragments -/

theorem cleanChar_spec {c : Char} (h : cleanChar c = true) :
    c ≠ '"' ∧ c ≠ '\\' ∧ c ≠ '\n' ∧ c ≠ '}' := by
  simp only [cleanChar, Bool.and_eq_true, Bool.not_eq_true', decide_eq_false_iff_not] at h
  exact ⟨h.1.1.1, h.1.1.2, h.1.2, h.2⟩

theorem cleanText_cons {c : Char} {s : Str} (h : cleanText (c :: s) = true) :
    cleanChar c = true ∧ cleanText s = true := by
  simp only [cleanText, List.all_cons, Bool.and_eq_true] at h
  exact ⟨h.1, by simp [cleanText, h.2]⟩

theorem parsePyStrBody_delim (delim : Char) (rest : Str) :
    parsePyStrBody delim (delim :: rest) = some ([], rest) := by
  rw [parsePyStrBody, if_pos rfl]

theorem parsePyStrBody_plain {delim c : Char} (h1 : c ≠ delim) (h2 : c ≠ '\n')
    (h3 : c ≠ '\\') (rest : Str) :
    parsePyStrBody delim (c :: rest) =
      (parsePyStrBody delim rest).map (fun p => (c :: p.1, p.2)) := by
  rw [parsePyStrBody, if_neg h1, if_neg h2, if_neg h3]

/-- A clean text, double-quoted in the source format, evaluates to itself. -/
theorem parsePyStrBody_clean {s : Str} (h : cleanText s = true) (rest : Str) :
    parsePyStrBody '"' (s ++ '"' :: rest) = some (s, rest) := by
  induction s with
  | nil => simpa using parsePyStrBody_delim '"' rest
  | cons c cs ih =>
    obtain ⟨hc, hcs⟩ := cleanText_cons h
    obtain ⟨h1, h2, h3, _⟩ := cleanChar_spec hc
    rw [List.cons_append, parsePyStrBody_plain h1 h3 h2, ih hcs]
    rfl

theorem pySrcAtom_head (a : PyAtom) :
    ∃ c rs, pySrcAtom a = c :: rs ∧ isPySpace c = false ∧
      c ≠ ']' ∧ c ≠ '}' ∧ c ≠ '[' := by
  cases a with
  | str s => exact ⟨'"', _, rfl, by decide, by decide, by decide, by decide⟩
  | int n =>
    obtain ⟨c, rs, he, hd⟩ := intDec_head n
    refine ⟨c, rs, he, ?_, ?_, ?_, ?_⟩
    · rcases hd with h | h
      · exact isDigitCh_not_space h
      · subst h; decide
    · rcases hd with h | h
      · intro hcon; subst hcon; simp [isDigitCh] at h
      · subst h; decide
    · rcases hd with h | h
      · intro hcon; subst hcon; simp [isDigitCh] at h
      · subst h; decide
    · rcases hd with h | h
      · intro hcon; subst hcon; simp [isDigitCh] at h
      · subst h; decide

/-- A clean source atom evaluates to itself, given that what follows does
not start with a digit. -/
theorem parsePyAtom_src {a : PyAtom} (hca : cleanAtom a = true) (rest : Str)
    (h : ∀ c, rest.head? = some c → isDigitCh c = false) :
    parsePyAtom (pySrcAtom a ++ rest) = some (a, rest) := by
  cases a with
  | str s =>
    rw [pySrcAtom, pySrcStr, List.cons_append, List.cons_append, List.append_assoc,
      show (['"'] : Str) ++ rest = '"' :: rest from rfl]
    rw [show parsePyAtom ('"' :: (s ++ '"' :: rest)) =
      (parsePyStrBody '"' (s ++ '"' :: rest)).map (fun p => (PyAtom.str p.1, p.2)) from rfl]
    rw [parsePyStrBody_clean (by simpa [cleanAtom] using hca)]
    rfl
  | int n =>
    rw [pySrcAtom]
    rcases hnd : intDec n with _ | ⟨c, rs⟩
    · obtain ⟨c, rs, he, _⟩ := intDec_head n
      rw [he] at hnd
      simp at hnd
    · have hd : isDigitCh c = true ∨ c = '-' := by
        obtain ⟨c2, rs2, he, hd⟩ := intDec_head n
        rw [hnd] at he
        injection he with e1 e2
        subst e1
        exact hd
      have hq1 : c ≠ '"' := by
        rcases hd with hh | hh
        · intro e; subst e; simp [isDigitCh] at hh
        · subst hh; decide
      have hq2 : c ≠ '\'' := by
        rcases hd with hh | hh
        · intro e; subst e; simp [isDigitCh] at hh
        · subst hh; decide
      rw [parsePyAtom.eq_def]
      split
      · rename_i heq
        injection heq with e1 e2
        exact absurd e1 hq1
      · rename_i heq
        injection heq with e1 e2
        exact absurd e1 hq2
      · rw [show c :: rs ++ rest = (c :: rs) ++ rest from rfl, ← hnd,
          parseDecInt_intDec n rest h]
        rfl

theorem parsePyListAux_ws (fuel : Nat) (s : Str) :
    parsePyListAux fuel (' ' :: s) = parsePyListAux fuel s := by
  cases fuel with
  | zero => rfl
  | succ f => rw [parsePyListAux, parsePyListAux, skipWS_space]

/-- Clean source list elements evaluate to themselves, for any fuel
exceeding the element count. -/
theorem parsePyListAux_src (l : List PyAtom) (hcl : ∀ a ∈ l, cleanAtom a = true) :
    ∀ (fuel : Nat), l.length < fuel → ∀ rest : Str,
      parsePyListAux fuel (pySrcElems l ++ ']' :: rest) = some (l, rest) := by
  induction l with
  | nil =>
    intro fuel hf rest
    cases fuel with
    | zero => omega
    | succ f =>
      rw [parsePyListAux, pySrcElems]
      simp only [List.map_nil, sepJoin, List.nil_append]
      rfl
  | cons a t ih =>
    intro fuel hf rest
    cases fuel with
    | zero => omega
    | succ f =>
      have hcla : cleanAtom a = true := hcl a (by simp)
      obtain ⟨c, rs, he, hws, hbr, _, _⟩ := pySrcAtom_head a
      cases t with
      | nil =>
        rw [parsePyListAux, pySrcElems]
        simp only [List.map_cons, List.map_nil, sepJoin]
        rw [he, List.cons_append, skipWS_cons hws]
        split
        · rename_i r0 heq
          injection heq with h1 h2
          exact absurd h1 hbr
        · rw [← List.cons_append, ← he,
            parsePyAtom_src hcla (']' :: rest)
              (by intro x hx; injection hx with hx; subst hx; decide)]
          rfl
      | cons b t2 =>
        rw [parsePyListAux, pySrcElems]
        simp only [List.map_cons, sepJoin]
        rw [he]
        simp only [List.cons_append, List.append_assoc]
        rw [skipWS_cons hws]
        split
        · rename_i r0 heq
          injection heq with h1 h2
          exact absurd h1 hbr
        · rw [← List.cons_append, ← he]
          rw [show ", ".toList ++ (sepJoin ", ".toList (pySrcAtom b :: t2.map pySrcAtom) ++ ']' :: rest) =
            ',' :: ' ' :: (sepJoin ", ".toList (pySrcAtom b :: t2.map pySrcAtom) ++ ']' :: rest) from rfl]
          rw [parsePyAtom_src hcla _
            (by intro x hx; injection hx with hx; subst hx; decide)]
          simp only []
          rw [skipWS_cons (by decide)]
          have hrec := ih (fun x hx => hcl x (by simp [hx])) f (by simp at hf ⊢; omega) rest
          rw [pySrcElems] at hrec
          simp only [List.map_cons] at hrec
          have hx : parsePyListAux f
              (' ' :: (sepJoin ", ".toList (pySrcAtom b :: t2.map pySrcAtom) ++ ']' :: rest)) =
              some (b :: t2, rest) := by
            rw [parsePyListAux_ws]
            exact hrec
          simp only []
          rw [hx]

theorem parsePyValue_ws (fuel : Nat) (s : Str) :
    parsePyValue fuel (' ' :: s) = parsePyValue fuel s := by
  rw [parsePyValue, parsePyValue, skipWS_space]

/-- A clean source value evaluates to itself, with enough fuel for its
elements and no digit immediately after it. -/
theorem parsePyValue_src {v : PyVal} (hcv : cleanVal v = true) (fuel : Nat)
    (hf : ∀ l, v = PyVal.list l → l.length < fuel) (rest : Str)
    (h : ∀ c, rest.head? = some c → isDigitCh c = false) :
    parsePyValue fuel (pySrcVal v ++ rest) = some (v, rest) := by
  cases v with
  | atom a =>
    rw [pySrcVal]
    obtain ⟨c, rs, he, hws, _, _, hbk⟩ := pySrcAtom_head a
    rw [parsePyValue, he, List.cons_append, skipWS_cons hws]
    split
    · rename_i r0 heq
      injection heq with h1 h2
      exact absurd h1 hbk
    · rw [← List.cons_append, ← he, parsePyAtom_src (by simpa [cleanVal] using hcv) rest h]
      rfl
  | list l =>
    rw [pySrcVal, parsePyValue]
    rw [show ('[' :: pySrcElems l ++ [']']) ++ rest = '[' :: (pySrcElems l ++ ']' :: rest) from by
      rw [List.cons_append, List.cons_append, List.append_assoc,
        show ([']'] : Str) ++ rest = ']' :: rest from rfl]]
    rw [skipWS_cons (by decide)]
    simp only []
    rw [parsePyListAux_src l (by simpa [cleanVal] using hcv) fuel (hf l rfl) rest]
    rfl

theorem parsePyDictBody_ws (fuel : Nat) (s : Str) :
    parsePyDictBody fuel (' ' :: s) = parsePyDictBody fuel s := by
  cases fuel with
  | zero => rfl
  | succ f => rw [parsePyDictBody, parsePyDictBody, skipWS_space]

theorem pySrcField_shape (k : Str) (v : PyVal) (tail : Str) :
    pySrcField (k, v) ++ tail = '"' :: (k ++ '"' :: ':' :: ' ' :: (pySrcVal v ++ tail)) := by
  rw [pySrcField, show ("\": ".toList : Str) = '"' :: ':' :: ' ' :: [] from rfl]
  simp [List.append_assoc]

/-- Clean source dict entries evaluate to themselves, with enough fuel for
the entries and their list elements. -/
theorem parsePyDictBody_src (d : PyDict)
    (hk : ∀ kv ∈ d, cleanText kv.1 = true) (hv : ∀ kv ∈ d, cleanVal kv.2 = true) :
    ∀ (fuel : Nat), (∀ kv ∈ d, pyValCount kv.2 + d.length < fuel) →
      d.length < fuel → ∀ rest : Str,
      parsePyDictBody fuel (pySrcFields d ++ '}' :: rest) = some (d, rest) := by
  induction d with
  | nil =>
    intro fuel hfv hfl rest
    cases fuel with
    | zero => omega
    | succ f =>
      rw [parsePyDictBody, pySrcFields]
      simp only [List.map_nil, sepJoin, List.nil_append]
      rfl
  | cons kv t ih =>
    intro fuel hfv hfl rest
    cases fuel with
    | zero => omega
    | succ f =>
      obtain ⟨k, v⟩ := kv
      have hck : cleanText k = true := hk (k, v) (by simp)
      have hcv : cleanVal v = true := hv (k, v) (by simp)
      have hcount : pyValCount v + (t.length + 1) < f + 1 := by
        have := hfv (k, v) (by simp)
        simpa using this
      have hflv : ∀ l, v = PyVal.list l → l.length < f := by
        intro l hl
        subst hl
        simp [pyValCount] at hcount
        omega
      cases t with
      | nil =>
        rw [parsePyDictBody, pySrcFields]
        simp only [List.map_cons, List.map_nil, sepJoin]
        rw [pySrcField_shape k v ('}' :: rest)]
        rw [skipWS_cons (by decide)]
        split
        · rename_i r0 heq
          injection heq with h1 h2
          exact absurd h1 (by decide)
        · rw [show parsePyAtom ('"' :: (k ++ '"' :: ':' :: ' ' :: (pySrcVal v ++ '}' :: rest))) =
            (parsePyStrBody '"' (k ++ '"' :: ':' :: ' ' :: (pySrcVal v ++ '}' :: rest))).map
              (fun p => (PyAtom.str p.1, p.2)) from rfl]
          rw [parsePyStrBody_clean hck]
          simp only [Option.map_some']
          rw [skipWS_cons (by decide)]
          simp only []
          rw [parsePyValue_ws, parsePyValue_src hcv f hflv ('}' :: rest)
            (by intro x hx; injection hx with hx; subst hx; decide)]
          simp only []
          rw [skipWS_cons (by decide)]
          rfl
      | cons kv2 t2 =>
        rw [parsePyDictBody, pySrcFields]
        simp only [List.map_cons, sepJoin]
        rw [show (pySrcField (k, v) ++ ", ".toList ++
            sepJoin ", ".toList (pySrcField kv2 :: t2.map pySrcField)) ++ '}' :: rest =
          pySrcField (k, v) ++ (',' :: ' ' ::
            (sepJoin ", ".toList (pySrcField kv2 :: t2.map pySrcField) ++ '}' :: rest)) from by
          simp [List.append_assoc]]
        rw [pySrcField_shape k v]
        rw [skipWS_cons (by decide)]
        split
        · rename_i r0 heq
          injection heq with h1 h2
          exact absurd h1 (by decide)
        · rw [show parsePyAtom ('"' :: (k ++ '"' :: ':' :: ' ' ::
              (pySrcVal v ++ ',' :: ' ' ::
                (sepJoin ", ".toList (pySrcField kv2 :: t2.map pySrcField) ++ '}' :: rest)))) =
            (parsePyStrBody '"' (k ++ '"' :: ':' :: ' ' ::
              (pySrcVal v ++ ',' :: ' ' ::
                (sepJoin ", ".toList (pySrcField kv2 :: t2.map pySrcField) ++ '}' :: rest)))).map
              (fun p => (PyAtom.str p.1, p.2)) from rfl]
          rw [parsePyStrBody_clean hck]
          simp only [Option.map_some']
          rw [skipWS_cons (by decide)]
          simp only []
          rw [parsePyValue_ws, parsePyValue_src hcv f hflv _
            (by intro x hx; injection hx with hx; subst hx; decide)]
          simp only []
          rw [skipWS_cons (by decide)]
          split
          · rename_i r8 heq
            injection heq with h1 h2
            exact absurd h1 (by decide)
          · rename_i r8 heq
            injection heq with h1 h2
            subst h2
            rw [parsePyDictBody_ws]
            have hrec := ih (fun x hx => hk x (by simp [hx])) (fun x hx => hv x (by simp [hx]))
              f (by
                intro x hx
                have := hfv x (by simp [hx])
                simp at this ⊢
                omega)
              (by simp at hfl ⊢; omega) rest
            rw [pySrcFields] at hrec
            simp only [List.map_cons] at hrec
            rw [hrec]
          · rename_i hno1 hno2
            exact absurd rfl (hno2 _)

theorem pySrcAtom_ne_nil (a : PyAtom) : pySrcAtom a ≠ [] := by
  obtain ⟨c, rs, he, _⟩ := pySrcAtom_head a
  simp [he]

theorem length_pySrcElems (l : List PyAtom) : l.length ≤ (pySrcElems l).length := by
  induction l with
  | nil => simp [pySrcElems, sepJoin]
  | cons a t ih =>
    cases t with
    | nil =>
      have h1 : 0 < (pySrcAtom a).length := List.length_pos.mpr (pySrcAtom_ne_nil a)
      rw [pySrcElems]
      simp only [List.map_cons, List.map_nil, sepJoin, List.length_cons, List.length_nil]
      omega
    | cons b t2 =>
      rw [pySrcElems]
      simp only [List.map_cons, sepJoin]
      rw [pySrcElems] at ih
      simp only [List.map_cons] at ih
      have h1 : 0 < (pySrcAtom a).length := List.length_pos.mpr (pySrcAtom_ne_nil a)
      simp only [List.length_append, List.length_cons] at ih ⊢
      have : ", ".toList.length = 2 := by decide
      omega

theorem pyValCount_le (v : PyVal) : pyValCount v ≤ (pySrcVal v).length := by
  cases v with
  | atom a => simp [pyValCount]
  | list l =>
    have := length_pySrcElems l
    rw [pyValCount, pySrcVal]
    simp only [List.length_cons, List.length_append, List.length_nil]
    omega

theorem length_pyEmitInnards (r : QRecord) :
    (pySrcVal r.options).length + 4 ≤ (pyEmitInnards r).length ∧
    (pySrcVal r.answer).length + 4 ≤ (pyEmitInnards r).length ∧
    3 ≤ (pyEmitInnards r).length := by
  rw [pyEmitInnards, pySrcFields, recDict]
  simp only [List.map_cons, List.map_nil, sepJoin, pySrcField, List.length_append,
    List.length_cons]
  refine ⟨?_, ?_, ?_⟩ <;> omega

/-- Evaluating a well-formed emitted record fragment yields its dict. -/
theorem pyEvalDict_emit (r : QRecord) (hc : cleanRecord r = true) :
    pyEvalDict (pyEmitRecord r) = some (recDict r) := by
  have hc5 : cleanText r.cat = true ∧ cleanText r.q = true ∧ cleanText r.explain = true ∧
      cleanVal r.options = true ∧ cleanVal r.answer = true := by
    simp only [cleanRecord, Bool.and_eq_true] at hc
    exact ⟨hc.1.1.1.1, hc.1.1.1.2, hc.1.1.2, hc.1.2, hc.2⟩
  have hlen := length_pyEmitInnards r
  simp only [pyEmitInnards] at hlen
  have hco := pyValCount_le r.options
  have hca := pyValCount_le r.answer
  rw [pyEvalDict, pyEmitRecord]
  simp only [pyEmitInnards, List.cons_append]
  rw [skipWS_cons (by decide)]
  simp only []
  have hsrc := parsePyDictBody_src (recDict r)
    (by
      intro kv hkv
      simp only [recDict, List.mem_cons, List.not_mem_nil, or_false] at hkv
      rcases hkv with h | h | h | h | h
      · subst h; exact of_decide_eq_true rfl
      · subst h; exact of_decide_eq_true rfl
      · subst h; exact of_decide_eq_true rfl
      · subst h; exact of_decide_eq_true rfl
      · subst h; exact of_decide_eq_true rfl)
    (by
      intro kv hkv
      simp only [recDict, List.mem_cons, List.not_mem_nil, or_false] at hkv
      rcases hkv with h | h | h | h | h
      · subst h; simpa [cleanVal, cleanAtom] using hc5.1
      · subst h; simpa [cleanVal, cleanAtom] using hc5.2.1
      · subst h; exact hc5.2.2.2.1
      · subst h; exact hc5.2.2.2.2
      · subst h; simpa [cleanVal, cleanAtom] using hc5.2.2.1)
    (('{' :: (pySrcFields (recDict r) ++ ['}'])).length + 1)
    (by
      intro kv hkv
      simp only [recDict, List.mem_cons, List.not_mem_nil, or_false] at hkv
      have hr : (recDict r).length = 5 := by simp [recDict]
      rw [hr]
      simp only [List.length_cons, List.length_append, List.length_nil]
      rcases hkv with h | h | h | h | h
      · subst h
        rw [show pyValCount (catKey, PyVal.atom (PyAtom.str r.cat)).2 = 0 from rfl]
        omega
      · subst h
        rw [show pyValCount (qKey, PyVal.atom (PyAtom.str r.q)).2 = 0 from rfl]
        omega
      · subst h
        rw [show (optionsKey, r.options).2 = r.options from rfl]
        omega
      · subst h
        rw [show (answerKey, r.answer).2 = r.answer from rfl]
        omega
      · subst h
        rw [show pyValCount (explainKey, PyVal.atom (PyAtom.str r.explain)).2 = 0 from rfl]
        omega)
    (by
      have hr : (recDict r).length = 5 := by simp [recDict]
      rw [hr]
      simp only [List.length_cons, List.length_append, List.length_nil]
      omega)
    []
  rw [hsrc]
  rfl

/-! ## Lemmas: splitting the array body -/

theorem intDec_chars (n : Int) : ∀ c ∈ intDec n, isDigitCh c = true ∨ c = '-' := by
  intro c hc
  rw [intDec] at hc
  split at hc
  · rcases List.mem_cons.mp hc with h | h
    · exact Or.inr h
    · exact Or.inl (natDec_all_digits n.natAbs c h)
  · exact Or.inl (natDec_all_digits n.natAbs c hc)

theorem intDec_no_brace (n : Int) : '}' ∉ intDec n := by
  intro hc
  rcases intDec_chars n '}' hc with h | h
  · simp [isDigitCh] at h
  · simp at h

theorem pySrcStr_no_brace {s : Str} (h : cleanText s = true) : '}' ∉ pySrcStr s := by
  intro hc
  rw [pySrcStr] at hc
  rcases List.mem_cons.mp hc with h1 | h1
  · simp at h1
  · rcases List.mem_append.mp h1 with h2 | h2
    · simp only [cleanText, List.all_eq_true] at h
      obtain ⟨_, _, _, h4⟩ := cleanChar_spec (h '}' h2)
      simp at h4
    · simp at h2

theorem pySrcAtom_no_brace {a : PyAtom} (h : cleanAtom a = true) : '}' ∉ pySrcAtom a := by
  cases a with
  | str s => exact pySrcStr_no_brace (by simpa [cleanAtom] using h)
  | int n => exact intDec_no_brace n

theorem pySrcElems_no_brace {l : List PyAtom} (h : ∀ a ∈ l, cleanAtom a = true) :
    '}' ∉ pySrcElems l := by
  induction l with
  | nil => simp [pySrcElems, sepJoin]
  | cons a t ih =>
    cases t with
    | nil =>
      rw [pySrcElems]
      simp only [List.map_cons, List.map_nil, sepJoin]
      exact pySrcAtom_no_brace (h a (by simp))
    | cons b t2 =>
      rw [pySrcElems]
      simp only [List.map_cons, sepJoin]
      intro hc
      rcases List.mem_append.mp hc with h1 | h1
      · rcases List.mem_append.mp h1 with h2 | h2
        · exact pySrcAtom_no_brace (h a (by simp)) h2
        · simp at h2
      · have := ih (fun x hx => h x (by simp [hx]))
        rw [pySrcElems] at this
        simp only [List.map_cons] at this
        exact this h1

theorem pySrcVal_no_brace {v : PyVal} (h : cleanVal v = true) : '}' ∉ pySrcVal v := by
  cases v with
  | atom a => exact pySrcAtom_no_brace (by simpa [cleanVal] using h)
  | list l =>
    rw [pySrcVal]
    intro hc
    rcases List.mem_cons.mp hc with h1 | h1
    · simp at h1
    · rcases List.mem_append.mp h1 with h2 | h2
      · exact pySrcElems_no_brace (by simpa [cleanVal] using h) h2
      · simp at h2

theorem pyEmitInnards_no_brace {r : QRecord} (hc : cleanRecord r = true) :
    '}' ∉ pyEmitInnards r := by
  have hc5 : cleanText r.cat = true ∧ cleanText r.q = true ∧ cleanText r.explain = true ∧
      cleanVal r.options = true ∧ cleanVal r.answer = true := by
    simp only [cleanRecord, Bool.and_eq_true] at hc
    exact ⟨hc.1.1.1.1, hc.1.1.1.2, hc.1.1.2, hc.1.2, hc.2⟩
  have hfield : ∀ (k : Str) (v : PyVal), '}' ∉ k → cleanVal v = true →
      '}' ∉ pySrcField (k, v) := by
    intro k v hk hv hc2
    rw [pySrcField] at hc2
    rcases List.mem_cons.mp hc2 with h1 | h1
    · simp at h1
    · rcases List.mem_append.mp h1 with h2 | h2
      · rcases List.mem_append.mp h2 with h3 | h3
        · exact hk h3
        · simp at h3
      · exact pySrcVal_no_brace hv h2
  rw [pyEmitInnards, pySrcFields, recDict]
  simp only [List.map_cons, List.map_nil, sepJoin]
  intro hc2
  have hsep : ('}' : Char) ∉ ", ".toList := by decide
  have f1 := hfield catKey (PyVal.atom (PyAtom.str r.cat)) (by decide)
    (by simpa [cleanVal, cleanAtom] using hc5.1)
  have f2 := hfield qKey (PyVal.atom (PyAtom.str r.q)) (by decide)
    (by simpa [cleanVal, cleanAtom] using hc5.2.1)
  have f3 := hfield optionsKey r.options (by decide) hc5.2.2.2.1
  have f4 := hfield answerKey r.answer (by decide) hc5.2.2.2.2
  have f5 := hfield explainKey (PyVal.atom (PyAtom.str r.explain)) (by decide)
    (by simpa [cleanVal, cleanAtom] using hc5.2.2.1)
  simp only [List.mem_append] at hc2
  rcases hc2 with (h | h) | (h | h) | (h | h) | (h | h) | h
  · exact f1 h
  · exact hsep h
  · exact f2 h
  · exact hsep h
  · exact f3 h
  · exact hsep h
  · exact f4 h
  · exact hsep h
  · exact f5 h

theorem getLast?_append_some {l m : Str} {c : Char} (h : m.getLast? = some c) :
    (l ++ m).getLast? = some c := by
  rw [List.getLast?_append, h]; rfl

theorem pySrcStr_getLast (s : Str) : (pySrcStr s).getLast? = some '"' := by
  rw [pySrcStr]
  exact List.getLast?_concat _

theorem pyEmitInnards_head (r : QRecord) : (pyEmitInnards r).head? = some '"' := rfl

theorem pyEmitInnards_getLast (r : QRecord) : (pyEmitInnards r).getLast? = some '"' := by
  rw [pyEmitInnards, pySrcFields, recDict]
  simp only [List.map_cons, List.map_nil, sepJoin]
  apply getLast?_append_some
  apply getLast?_append_some
  apply getLast?_append_some
  apply getLast?_append_some
  rw [pySrcField]
  apply getLast?_append_some
  exact pySrcStr_getLast r.explain

theorem pyEmitInnards_ne_nil (r : QRecord) : pyEmitInnards r ≠ [] := by
  intro h
  have := pyEmitInnards_head r
  rw [h] at this
  exact Option.noConfusion this

theorem chainOut_nil_acc (r : QRecord) (rs : List QRecord) :
    chainOut [] r rs = chainPieces r rs := by
  cases rs <;> simp [chainOut, chainPieces]

theorem srcArrayBody_innChain (r : QRecord) (rs : List QRecord) :
    srcArrayBody (r :: rs) = '{' :: innChain r rs := by
  induction rs generalizing r with
  | nil => rfl
  | cons r2 rest ih =>
    simp only [srcArrayBody, List.map_cons, sepJoin] at ih ⊢
    rw [innChain, pyEmitRecord, ih r2]
    rw [show (",\n    ".toList : Str) = [',', '\n', ' ', ' ', ' ', ' '] from rfl]
    simp [List.append_assoc]

theorem innChain_getLast (r : QRecord) (rs : List QRecord) :
    (innChain r rs).getLast? = some '}' := by
  induction rs generalizing r with
  | nil =>
    rw [innChain]
    exact List.getLast?_concat _
  | cons r2 rest ih =>
    rw [innChain]
    rw [show pyEmitInnards r ++
        ('}' :: ',' :: '\n' :: ' ' :: ' ' :: ' ' :: ' ' :: '{' :: innChain r2 rest) =
        (pyEmitInnards r ++ ['}', ',', '\n', ' ', ' ', ' ', ' ', '{']) ++ innChain r2 rest from by
      simp [List.append_assoc]]
    exact getLast?_append_some (ih r2)

theorem splitBoundaryAux_nil (fuel : Nat) (acc : Str) :
    splitBoundaryAux fuel acc [] = [acc.reverse] := by
  cases fuel <;> rfl

theorem splitBoundaryAux_pass : ∀ (X : Str), '}' ∉ X → ∀ (fuel : Nat) (acc rest : Str),
    splitBoundaryAux (X.length + fuel) acc (X ++ rest) =
      splitBoundaryAux fuel (X.reverse ++ acc) rest := by
  intro X
  induction X with
  | nil => intro _ fuel acc rest; simp
  | cons c t ih =>
    intro hX fuel acc rest
    have hc : c ≠ '}' := fun h => hX (h ▸ List.mem_cons_self c t)
    rw [show (c :: t).length + fuel = (t.length + fuel) + 1 from by simp [List.length_cons]; omega]
    rw [show ((c :: t) ++ rest : Str) = c :: (t ++ rest) from rfl]
    rw [splitBoundaryAux]
    rw [if_neg (fun h => hc h.1)]
    rw [ih (fun h => hX (List.mem_cons_of_mem c h)) fuel (c :: acc) rest]
    simp [List.reverse_cons, List.append_assoc]

theorem splitBoundaryAux_boundary (fuel : Nat) (acc Y : Str) :
    splitBoundaryAux (fuel + 1) acc
      ('}' :: ',' :: '\n' :: ' ' :: ' ' :: ' ' :: ' ' :: '{' :: Y) =
      acc.reverse :: splitBoundaryAux fuel [] Y := by
  rw [splitBoundaryAux]
  rw [if_pos (show '}' = '}' ∧
      (',' :: '\n' :: ' ' :: ' ' :: ' ' :: ' ' :: '{' :: Y).head? = some ',' from ⟨rfl, rfl⟩)]
  rw [if_pos (show (((',' :: '\n' :: ' ' :: ' ' :: ' ' :: ' ' :: '{' :: Y : Str).tail.takeWhile
      isPySpace).contains '\n') = true from rfl)]
  rw [show (',' :: '\n' :: ' ' :: ' ' :: ' ' :: ' ' :: '{' :: Y : Str).tail.dropWhile isPySpace =
      '{' :: Y from rfl]
  rfl

theorem splitBoundaryAux_chain : ∀ (rs : List QRecord) (r : QRecord), '}' ∉ pyEmitInnards r →
    (∀ x ∈ rs, '}' ∉ pyEmitInnards x) → ∀ (fuel : Nat) (acc : Str),
    splitBoundaryAux ((innChain r rs).length + 1 + fuel) acc (innChain r rs) =
      chainOut acc r rs := by
  intro rs
  induction rs with
  | nil =>
    intro r hr _ fuel acc
    rw [show innChain r [] = pyEmitInnards r ++ ['}'] from rfl]
    rw [show (pyEmitInnards r ++ ['}']).length + 1 + fuel =
        (pyEmitInnards r).length + (fuel + 2) from by simp; omega]
    rw [splitBoundaryAux_pass _ hr (fuel + 2) acc ['}']]
    rw [show fuel + 2 = (fuel + 1) + 1 from rfl]
    rw [splitBoundaryAux]
    rw [if_neg (show ¬('}' = '}' ∧ ([] : Str).head? = some ',') from fun h =>
      Option.noConfusion h.2)]
    rw [splitBoundaryAux_nil]
    simp [chainOut, chainPieces, List.reverse_cons, List.reverse_append, List.append_assoc]
  | cons r2 rest ih =>
    intro r hr hrs fuel acc
    rw [show innChain r (r2 :: rest) = pyEmitInnards r ++
        ('}' :: ',' :: '\n' :: ' ' :: ' ' :: ' ' :: ' ' :: '{' :: innChain r2 rest) from rfl]
    rw [show (pyEmitInnards r ++
        ('}' :: ',' :: '\n' :: ' ' :: ' ' :: ' ' :: ' ' :: '{' :: innChain r2 rest)).length + 1 +
        fuel = (pyEmitInnards r).length + ((innChain r2 rest).length + 9 + fuel) from by
      simp; omega]
    rw [splitBoundaryAux_pass _ hr ((innChain r2 rest).length + 9 + fuel) acc _]
    rw [show (innChain r2 rest).length + 9 + fuel = ((innChain r2 rest).length + 8 + fuel) + 1
      from by omega]
    rw [splitBoundaryAux_boundary]
    rw [show (innChain r2 rest).length + 8 + fuel = (innChain r2 rest).length + 1 + (7 + fuel)
      from by omega]
    rw [ih r2 (hrs r2 (by simp)) (fun x hx => hrs x (by simp [hx])) (7 + fuel) []]
    rw [chainOut_nil_acc]
    simp [chainOut, chainPieces, List.reverse_append]

theorem splitBoundary_srcArrayBody (r : QRecord) (rs : List QRecord)
    (hr : '}' ∉ pyEmitInnards r) (hrs : ∀ x ∈ rs, '}' ∉ pyEmitInnards x) :
    splitBoundary (srcArrayBody (r :: rs)) = chainOut ['{'] r rs := by
  rw [splitBoundary, srcArrayBody_innChain]
  rw [show ('{' :: innChain r rs).length + 1 = ((innChain r rs).length + 1) + 1 from by
    simp [List.length_cons]]
  rw [splitBoundaryAux]
  rw [if_neg (show ¬('{' = '}' ∧ (innChain r rs).head? = some ',') from fun h => by
    exact absurd h.1 (by decide))]
  have := splitBoundaryAux_chain rs r hr hrs 0 ['{']
  rw [show (innChain r rs).length + 1 + 0 = (innChain r rs).length + 1 from rfl] at this
  exact this

theorem dropWhile_eq_self_of_head {p : Char → Bool} :
    ∀ {s : Str}, (∀ c, s.head? = some c → p c = false) → s.dropWhile p = s := by
  intro s h
  cases s with
  | nil => rfl
  | cons c t =>
    rw [List.dropWhile_cons, h c rfl]
    simp

theorem pyStrip_eq_self {s : Str} (h1 : ∀ c, s.head? = some c → isPySpace c = false)
    (h2 : ∀ c, s.getLast? = some c → isPySpace c = false) : pyStrip s = s := by
  rw [pyStrip, dropWhile_eq_self_of_head h1,
    dropWhile_eq_self_of_head (fun c hc => h2 c (by rwa [List.head?_reverse] at hc)),
    List.reverse_reverse]

theorem repairFragment_full (r : QRecord) :
    repairFragment (pyEmitRecord r) = pyEmitRecord r := by
  rw [repairFragment, pyEmitRecord]
  have hs : pyStrip ('{' :: pyEmitInnards r ++ ['}']) = '{' :: pyEmitInnards r ++ ['}'] := by
    apply pyStrip_eq_self
    · intro c hc
      rw [show (('{' :: pyEmitInnards r ++ ['}'] : Str)).head? = some '{' from rfl] at hc
      cases hc
      decide
    · intro c hc
      rw [List.getLast?_concat] at hc
      cases hc
      decide
  rw [hs]
  rw [show (('{' :: pyEmitInnards r ++ ['}'] : Str)).head? = some '{' from rfl]
  rw [if_pos rfl]
  rw [List.getLast?_concat]
  rw [if_pos rfl]

theorem repairFragment_first (r : QRecord) :
    repairFragment ('{' :: pyEmitInnards r) = pyEmitRecord r := by
  rw [repairFragment]
  have hlast : ('{' :: pyEmitInnards r : Str).getLast? = some '"' := by
    rw [show ('{' :: pyEmitInnards r : Str) = ['{'] ++ pyEmitInnards r from rfl]
    exact getLast?_append_some (pyEmitInnards_getLast r)
  have hs : pyStrip ('{' :: pyEmitInnards r) = '{' :: pyEmitInnards r := by
    apply pyStrip_eq_self
    · intro c hc
      cases hc
      decide
    · intro c hc
      rw [hlast] at hc
      cases hc
      decide
  rw [hs]
  rw [show ('{' :: pyEmitInnards r : Str).head? = some '{' from rfl]
  rw [if_pos rfl]
  rw [hlast]
  rw [if_neg (show ¬(some '"' = some '}') from by decide)]
  rfl

theorem repairFragment_mid (r : QRecord) :
    repairFragment (pyEmitInnards r) = pyEmitRecord r := by
  rw [repairFragment]
  have hs : pyStrip (pyEmitInnards r) = pyEmitInnards r := by
    apply pyStrip_eq_self
    · intro c hc
      rw [pyEmitInnards_head] at hc
      cases hc
      decide
    · intro c hc
      rw [pyEmitInnards_getLast] at hc
      cases hc
      decide
  rw [hs]
  rw [pyEmitInnards_head]
  rw [if_neg (show ¬(some '"' = some '{') from by decide)]
  rw [show ('{' :: pyEmitInnards r : Str).getLast? = ((['{'] : Str) ++ pyEmitInnards r).getLast?
    from rfl]
  rw [getLast?_append_some (pyEmitInnards_getLast r)]
  rw [if_neg (show ¬(some '"' = some '}') from by decide)]
  rfl

theorem repairFragment_last (r : QRecord) :
    repairFragment (pyEmitInnards r ++ ['}']) = pyEmitRecord r := by
  rw [repairFragment]
  have hhead : (pyEmitInnards r ++ ['}'] : Str).head? = some '"' := by
    rw [List.head?_append_of_ne_nil _ (pyEmitInnards_ne_nil r)]
    exact pyEmitInnards_head r
  have hs : pyStrip (pyEmitInnards r ++ ['}']) = pyEmitInnards r ++ ['}'] := by
    apply pyStrip_eq_self
    · intro c hc
      rw [hhead] at hc
      cases hc
      decide
    · intro c hc
      rw [List.getLast?_concat] at hc
      cases hc
      decide
  rw [hs]
  rw [hhead]
  rw [if_neg (show ¬(some '"' = some '{') from by decide)]
  rw [show ('{' :: (pyEmitInnards r ++ ['}']) : Str).getLast? = some '}' from by
    rw [show ('{' :: (pyEmitInnards r ++ ['}']) : Str) = ('{' :: pyEmitInnards r) ++ ['}'] from by
      simp]
    exact List.getLast?_concat _]
  rw [if_pos rfl]
  rw [pyEmitRecord]
  simp

theorem parseQuestionsAux_all_ok : ∀ (frs : List Str) (ds : List PyDict) (i : Nat),
    frs.map (fun s => pyEvalDict (repairFragment s)) = ds.map some →
    parseQuestionsAux i frs = (ds, []) := by
  intro frs
  induction frs with
  | nil =>
    intro ds i h
    cases ds with
    | nil => rfl
    | cons d dt => simp at h
  | cons s t ih =>
    intro ds i h
    cases ds with
    | nil => simp at h
    | cons d dt =>
      simp only [List.map_cons, List.cons.injEq] at h
      rw [parseQuestionsAux]
      rw [ih dt (i + 1) h.2]
      rw [show pyEvalDict (repairFragment s) = some d from h.1]

theorem chainPieces_eval : ∀ (rs : List QRecord) (r : QRecord), cleanRecord r = true →
    (∀ x ∈ rs, cleanRecord x = true) →
    (chainPieces r rs).map (fun s => pyEvalDict (repairFragment s)) =
      ((r :: rs).map recDict).map some := by
  intro rs
  induction rs with
  | nil =>
    intro r hc _
    rw [show chainPieces r [] = [pyEmitInnards r ++ ['}']] from rfl]
    simp only [List.map_cons, List.map_nil]
    rw [repairFragment_last, pyEvalDict_emit r hc]
  | cons r2 rest ih =>
    intro r hc hcs
    rw [show chainPieces r (r2 :: rest) = pyEmitInnards r :: chainPieces r2 rest from rfl]
    simp only [List.map_cons]
    rw [repairFragment_mid, pyEvalDict_emit r hc]
    rw [ih r2 (hcs r2 (by simp)) (fun x hx => hcs x (by simp [hx]))]
    simp

/-- The fragments the script's split produces from a well-formed emitted array
body, with the structural `{`/`}` repair already known to restore each record. -/
theorem chainOut_eval (r : QRecord) (rs : List QRecord) (hc : cleanRecord r = true)
    (hcs : ∀ x ∈ rs, cleanRecord x = true) :
    (chainOut ['{'] r rs).map (fun s => pyEvalDict (repairFragment s)) =
      ((r :: rs).map recDict).map some := by
  cases rs with
  | nil =>
    rw [show chainOut ['{'] r [] = [('{' :: pyEmitInnards r : Str) ++ ['}']] from by
      simp [chainOut, chainPieces]]
    simp only [List.map_cons, List.map_nil]
    rw [show (('{' :: pyEmitInnards r : Str) ++ ['}']) = pyEmitRecord r from rfl]
    rw [repairFragment_full, pyEvalDict_emit r hc]
  | cons r2 rest =>
    rw [show chainOut ['{'] r (r2 :: rest) =
        ('{' :: pyEmitInnards r) :: chainPieces r2 rest from by
      simp [chainOut, chainPieces]]
    simp only [List.map_cons]
    rw [repairFragment_first, pyEvalDict_emit r hc]
    rw [chainPieces_eval rest r2 (hcs r2 (by simp)) (fun x hx => hcs x (by simp [hx]))]
    simp

/-! ## Lemmas: line structure of the destination file -/

theorem pyReadlines_cons_ne_nil (c : Char) (rest : Str) : pyReadlines (c :: rest) ≠ [] := by
  rw [pyReadlines]
  split
  · simp
  · split <;> simp

theorem pyWritelines_pyReadlines : ∀ (s : Str), pyWritelines (pyReadlines s) = s := by
  intro s
  induction s with
  | nil => rfl
  | cons c rest ih =>
    rw [pyReadlines]
    by_cases hc : c = '\n'
    · rw [if_pos hc, hc]
      rw [pyWritelines, List.flatten_cons]
      rw [show (pyReadlines rest).flatten = pyWritelines (pyReadlines rest) from rfl, ih]
      rfl
    · rw [if_neg hc]
      rcases hrl : pyReadlines rest with _ | ⟨l, ls⟩
      · have hr : rest = [] := by
          cases rest with
          | nil => rfl
          | cons c2 r2 => exact absurd hrl (pyReadlines_cons_ne_nil c2 r2)
        subst hr
        rfl
      · rw [pyWritelines, List.flatten_cons]
        rw [show (c :: l) ++ ls.flatten = c :: (l :: ls).flatten from by simp]
        rw [← hrl]
        rw [show (pyReadlines rest).flatten = pyWritelines (pyReadlines rest) from rfl, ih]

theorem pyReadlines_mem_ne_nil : ∀ (s : Str), ∀ l ∈ pyReadlines s, l ≠ [] := by
  intro s
  induction s with
  | nil => intro l hl; simp [pyReadlines] at hl
  | cons c rest ih =>
    intro l hl
    rw [pyReadlines] at hl
    by_cases hc : c = '\n'
    · rw [if_pos hc] at hl
      rcases List.mem_cons.mp hl with h | h
      · subst h; simp
      · exact ih l h
    · rw [if_neg hc] at hl
      rcases hrl : pyReadlines rest with _ | ⟨m, ms⟩
      · rw [hrl] at hl
        simp at hl
        subst hl
        simp
      · rw [hrl] at hl
        rcases List.mem_cons.mp hl with h | h
        · subst h; simp
        · exact ih l (by rw [hrl]; exact List.mem_cons_of_mem m h)

theorem lineCount_eq : ∀ (s : Str), lineCount s = s.count '\n' + tailPartial s := by
  intro s
  induction s with
  | nil => rfl
  | cons c rest ih =>
    rw [lineCount, pyReadlines]
    by_cases hc : c = '\n'
    · rw [if_pos hc, hc]
      cases rest with
      | nil => rfl
      | cons c2 r2 =>
        rw [List.length_cons]
        rw [show (pyReadlines (c2 :: r2)).length = lineCount (c2 :: r2) from rfl, ih]
        rw [show tailPartial ('\n' :: c2 :: r2) = tailPartial (c2 :: r2) from by
          rw [tailPartial, tailPartial, List.getLast?_cons_cons]]
        rw [show List.count '\n' ('\n' :: c2 :: r2) = List.count '\n' (c2 :: r2) + 1 from by
          rw [List.count_cons]; simp]
        omega
    · rw [if_neg hc]
      rcases hrl : pyReadlines rest with _ | ⟨m, ms⟩
      · have hr : rest = [] := by
          cases rest with
          | nil => rfl
          | cons c2 r2 => exact absurd hrl (pyReadlines_cons_ne_nil c2 r2)
        subst hr
        rw [show ([[c]] : List Str).length = 1 from rfl]
        rw [show ([c] : Str).count '\n' = 0 from by
          simp [List.count_cons, hc]]
        rw [show tailPartial [c] = 1 from by
          rw [tailPartial]
          simp only [List.getLast?_singleton]
          rw [if_neg hc]]
      · simp only []
        rw [List.length_cons]
        rw [show ms.length + 1 = (pyReadlines rest).length from by rw [hrl]; rfl]
        rw [show (pyReadlines rest).length = lineCount rest from rfl, ih]
        have hrest : rest ≠ [] := by
          intro h
          rw [h] at hrl
          simp [pyReadlines] at hrl
        rw [show tailPartial (c :: rest) = tailPartial rest from by
          rw [tailPartial, tailPartial]
          cases rest with
          | nil => exact absurd rfl hrest
          | cons c2 r2 => rw [List.getLast?_cons_cons]]
        rw [show List.count '\n' (c :: rest) = List.count '\n' rest from by
          rw [List.count_cons]; simp [hc]]

theorem not_mem_append {a : Char} {X Y : Str} (hx : a ∉ X) (hy : a ∉ Y) : a ∉ X ++ Y := by
  intro h
  rcases List.mem_append.mp h with h | h
  · exact hx h
  · exact hy h

theorem sepJoin_not_mem {a : Char} {sep : Str} (hs : a ∉ sep) :
    ∀ (ls : List Str), (∀ l ∈ ls, a ∉ l) → a ∉ sepJoin sep ls := by
  intro ls
  induction ls with
  | nil => intro _; simp [sepJoin]
  | cons x t ih =>
    intro h
    cases t with
    | nil => exact h x (by simp)
    | cons y t2 =>
      rw [sepJoin]
      · exact not_mem_append (not_mem_append (h x (by simp)) hs)
          (ih (fun l hl => h l (by simp [hl])))
      · simp

theorem toDigitChar_ne_nl (d : Nat) : toDigitChar d ≠ '\n' := by
  rw [toDigitChar]
  repeat' split
  all_goals decide

theorem toHexChar_ne_nl (d : Nat) : toHexChar d ≠ '\n' := by
  rw [toHexChar]
  repeat' split
  all_goals first | exact toDigitChar_ne_nl d | decide

theorem hex4_no_nl (n : Nat) : '\n' ∉ hex4 n := by
  intro h
  rw [hex4] at h
  rcases List.mem_cons.mp h with h1 | h1
  · exact toHexChar_ne_nl _ h1.symm
  rcases List.mem_cons.mp h1 with h2 | h2
  · exact toHexChar_ne_nl _ h2.symm
  rcases List.mem_cons.mp h2 with h3 | h3
  · exact toHexChar_ne_nl _ h3.symm
  rcases List.mem_cons.mp h3 with h4 | h4
  · exact toHexChar_ne_nl _ h4.symm
  · simp at h4

theorem natDec_no_nl (n : Nat) : '\n' ∉ natDec n := by
  intro h
  have := natDec_all_digits n '\n' h
  simp [isDigitCh] at this

theorem intDec_no_nl (n : Int) : '\n' ∉ intDec n := by
  intro h
  rcases intDec_chars n '\n' h with h1 | h1
  · simp [isDigitCh] at h1
  · simp at h1

theorem jsonEscChar_no_nl (c : Char) : '\n' ∉ jsonEscChar c := by
  rw [jsonEscChar]
  by_cases h1 : c = '"'
  · simp [h1]
  rw [if_neg h1]
  by_cases h2 : c = '\\'
  · simp [h2]
  rw [if_neg h2]
  by_cases h3 : c = '\x08'
  · simp [h3]
  rw [if_neg h3]
  by_cases h4 : c = '\x0c'
  · simp [h4]
  rw [if_neg h4]
  by_cases h5 : c = '\n'
  · simp [h5]
  rw [if_neg h5]
  by_cases h6 : c = '\r'
  · simp [h6]
  rw [if_neg h6]
  by_cases h7 : c = '\t'
  · simp [h7]
  rw [if_neg h7]
  by_cases h8 : c.toNat < 0x20 ∨ 0x7e < c.toNat
  · rw [if_pos h8]
    by_cases h9 : c.toNat < 0x10000
    · rw [if_pos h9]
      intro h
      rcases List.mem_cons.mp h with hh | hh
      · exact absurd hh (by decide)
      rcases List.mem_cons.mp hh with hh2 | hh2
      · exact absurd hh2 (by decide)
      · exact hex4_no_nl _ hh2
    · rw [if_neg h9]
      intro h
      rw [show ('\\' :: 'u' :: hex4 (0xD800 + (c.toNat - 0x10000) / 0x400) ++
          '\\' :: 'u' :: hex4 (0xDC00 + (c.toNat - 0x10000) % 0x400) : Str) =
          ('\\' :: 'u' :: hex4 (0xD800 + (c.toNat - 0x10000) / 0x400)) ++
          ('\\' :: 'u' :: hex4 (0xDC00 + (c.toNat - 0x10000) % 0x400)) from rfl] at h
      rcases List.mem_append.mp h with hh | hh <;>
      · rcases List.mem_cons.mp hh with hh1 | hh1
        · exact absurd hh1 (by decide)
        rcases List.mem_cons.mp hh1 with hh2 | hh2
        · exact absurd hh2 (by decide)
        · exact hex4_no_nl _ hh2
  · rw [if_neg h8]
    intro h
    rcases List.mem_cons.mp h with hh | hh
    · exact h5 hh.symm
    · simp at hh

theorem jsonQuoteStr_no_nl (s : Str) : '\n' ∉ jsonQuoteStr s := by
  intro h
  rw [jsonQuoteStr] at h
  rcases List.mem_cons.mp h with h1 | h1
  · exact absurd h1 (by decide)
  rcases List.mem_append.mp h1 with h2 | h2
  · obtain ⟨c, _, hm⟩ := List.mem_flatMap.mp h2
    exact jsonEscChar_no_nl c hm
  · simp at h2

theorem jsonDumpsAtom_no_nl (a : PyAtom) : '\n' ∉ jsonDumpsAtom a := by
  cases a with
  | str s => exact jsonQuoteStr_no_nl s
  | int n => exact intDec_no_nl n

theorem jsonDumpsAtomList_no_nl (l : List PyAtom) : '\n' ∉ jsonDumpsAtomList l := by
  intro h
  rw [jsonDumpsAtomList] at h
  rcases List.mem_cons.mp h with h1 | h1
  · exact absurd h1 (by decide)
  rcases List.mem_append.mp h1 with h2 | h2
  · rw [jsonArrBody] at h2
    refine sepJoin_not_mem (by decide) _ ?_ h2
    intro x hx
    obtain ⟨a, _, he⟩ := List.mem_map.mp hx
    rw [← he]
    exact jsonDumpsAtom_no_nl a
  · simp at h2

theorem jsonDumpsVal_no_nl (v : PyVal) : '\n' ∉ jsonDumpsVal v := by
  cases v with
  | atom a => exact jsonDumpsAtom_no_nl a
  | list l => exact jsonDumpsAtomList_no_nl l

theorem escapeQuotes_no_nl {s : Str} (h : '\n' ∉ s) : '\n' ∉ escapeQuotes s := by
  rw [escapeQuotes_eq_flatMap]
  intro hm
  obtain ⟨c, hc, hmc⟩ := List.mem_flatMap.mp hm
  rw [specEscChar] at hmc
  split at hmc
  · rcases List.mem_cons.mp hmc with h1 | h1
    · exact absurd h1 (by decide)
    · simp at h1
  · rcases List.mem_cons.mp hmc with h1 | h1
    · exact h (h1 ▸ hc)
    · simp at h1

theorem answerStr_no_nl {v : PyVal}
    (h : (∃ n, v = PyVal.atom (PyAtom.int n)) ∨ ∃ la, v = PyVal.list la) :
    '\n' ∉ answerStr v := by
  rcases h with ⟨n, hn⟩ | ⟨la, hla⟩
  · rw [hn]
    exact intDec_no_nl n
  · rw [hla]
    exact jsonDumpsAtomList_no_nl la

theorem jsEmit_no_nl (r : QRecord) (h1 : '\n' ∉ r.cat) (h2 : '\n' ∉ r.q)
    (h3 : '\n' ∉ r.explain)
    (hans : (∃ n, r.answer = PyVal.atom (PyAtom.int n)) ∨ ∃ la, r.answer = PyVal.list la) :
    '\n' ∉ jsEmit r := by
  rw [jsEmit]
  refine not_mem_append (not_mem_append (not_mem_append (not_mem_append (not_mem_append
    (not_mem_append (not_mem_append (not_mem_append (not_mem_append (not_mem_append
    (by decide) (escapeQuotes_no_nl h1)) (by decide)) (escapeQuotes_no_nl h2)) (by decide))
    (jsonDumpsVal_no_nl r.options)) (by decide)) (answerStr_no_nl hans)) (by decide))
    (escapeQuotes_no_nl h3)) (by decide)

theorem count_nl_sepJoin : ∀ (ls : List Str), ls ≠ [] → (∀ l ∈ ls, '\n' ∉ l) →
    (sepJoin ",\n".toList ls).count '\n' = ls.length - 1 := by
  intro ls
  induction ls with
  | nil => intro h; exact absurd rfl h
  | cons x t ih =>
    intro _ h
    cases t with
    | nil =>
      rw [show sepJoin ",\n".toList [x] = x from rfl]
      rw [List.count_eq_zero.mpr (h x (by simp))]
      rfl
    | cons y t2 =>
      rw [sepJoin]
      · rw [List.count_append, List.count_append]
        rw [List.count_eq_zero.mpr (h x (by simp))]
        rw [show (",\n".toList : Str).count '\n' = 1 from by decide]
        rw [ih (by simp) (fun l hl => h l (by simp [hl]))]
        simp only [List.length_cons]
        omega
      · simp

theorem count_nl_theBlock (ls : List Str) (hne : ls ≠ []) (h : ∀ l ∈ ls, '\n' ∉ l) :
    (theBlock ls).count '\n' = ls.length := by
  rw [theBlock, List.count_append, count_nl_sepJoin ls hne h]
  rw [show (",\n".toList : Str).count '\n' = 1 from by decide]
  have := List.length_pos.mpr hne
  omega

theorem getLast?_append_ne_nil {X Y : Str} (hY : Y ≠ []) :
    (X ++ Y).getLast? = Y.getLast? := by
  have h1 : Y.getLast?.isSome := List.getLast?_isSome.mpr hY
  obtain ⟨c, hc⟩ := Option.isSome_iff_exists.mp h1
  rw [hc]
  exact getLast?_append_some hc

theorem lineCount_spliceDest (dest b : Str) (hlen : 774 ≤ lineCount dest) :
    lineCount (spliceDest dest b) = lineCount dest + b.count '\n' := by
  have hL : 774 ≤ (pyReadlines dest).length := hlen
  have hsplit : spliceDest dest b =
      ((pyReadlines dest).take 773).flatten ++ (b ++ ((pyReadlines dest).drop 773).flatten) := by
    rw [spliceDest, pyInsert, pyWritelines, List.flatten_append, List.flatten_cons]
  have hdest : dest = ((pyReadlines dest).take 773).flatten ++
      ((pyReadlines dest).drop 773).flatten := by
    conv_lhs => rw [← pyWritelines_pyReadlines dest]
    rw [pyWritelines, ← List.flatten_append, List.take_append_drop]
  have hBne : (pyReadlines dest).drop 773 ≠ [] := by
    intro h
    have h2 : ((pyReadlines dest).drop 773).length = (pyReadlines dest).length - 773 :=
      List.length_drop 773 (pyReadlines dest)
    rw [h] at h2
    simp at h2
    omega
  obtain ⟨m, ms, hB⟩ := List.exists_cons_of_ne_nil hBne
  have hm : m ≠ [] := by
    apply pyReadlines_mem_ne_nil dest m
    apply List.mem_of_mem_drop (n := 773)
    rw [hB]
    exact List.mem_cons_self m ms
  have hFB : ((pyReadlines dest).drop 773).flatten ≠ [] := by
    rw [hB, List.flatten_cons]
    intro h
    exact hm (List.append_eq_nil.mp h).1
  have hg : (spliceDest dest b).getLast? = dest.getLast? := by
    rw [hsplit, getLast?_append_ne_nil (by
      intro h
      exact hFB (List.append_eq_nil.mp h).2)]
    rw [getLast?_append_ne_nil hFB]
    conv_rhs => rw [hdest]
    rw [getLast?_append_ne_nil hFB]
  have hcount : (spliceDest dest b).count '\n' = dest.count '\n' + b.count '\n' := by
    rw [hsplit, List.count_append, List.count_append]
    conv_rhs => rw [hdest]
    rw [List.count_append]
    omega
  rw [lineCount_eq, lineCount_eq, hcount]
  rw [show tailPartial (spliceDest dest b) = tailPartial dest from by
    rw [tailPartial, tailPartial, hg]]
  omega

/-! ## Lemmas: the per-fragment skip policy -/

theorem parseQuestionsAux_fst : ∀ (frs : List Str) (i : Nat),
    (parseQuestionsAux i frs).1 =
      frs.filterMap (fun s => pyEvalDict (repairFragment s)) := by
  intro frs
  induction frs with
  | nil => intro i; rfl
  | cons s t ih =>
    intro i
    rw [parseQuestionsAux, List.filterMap_cons]
    rcases hev : pyEvalDict (repairFragment s) with _ | d
    · simp only []
      exact ih (i + 1)
    · simp only []
      rw [← ih (i + 1)]

theorem parseQuestionsAux_err_mem : ∀ (frs : List Str) (i j : Nat) (hj : j < frs.length),
    pyEvalDict (repairFragment (frs.get ⟨j, hj⟩)) = none →
    (i + j + 1, (repairFragment (frs.get ⟨j, hj⟩)).take 200) ∈ (parseQuestionsAux i frs).2 := by
  intro frs
  induction frs with
  | nil => intro i j hj; simp at hj
  | cons s t ih =>
    intro i j hj hfail
    rw [parseQuestionsAux]
    cases j with
    | zero =>
      rw [show ((s :: t).get ⟨0, hj⟩ : Str) = s from rfl] at hfail ⊢
      rcases hp : parseQuestionsAux (i + 1) t with ⟨qs, errs⟩
      rw [hfail]
      simp only []
      exact List.mem_cons_self _ _
    | succ j2 =>
      have hj2 : j2 < t.length := by
        rw [List.length_cons] at hj
        omega
      rw [show ((s :: t).get ⟨j2 + 1, hj⟩ : Str) = t.get ⟨j2, hj2⟩ from rfl] at hfail ⊢
      have hmem := ih (i + 1) j2 hj2 hfail
      rw [show i + 1 + j2 + 1 = i + (j2 + 1) + 1 from by omega] at hmem
      rcases hp : parseQuestionsAux (i + 1) t with ⟨qs, errs⟩
      rw [hp] at hmem
      rcases hev : pyEvalDict (repairFragment s) with _ | d
      · simp only []
        exact List.mem_cons_of_mem _ hmem
      · simp only []
        exact hmem

/-! ## Lemmas: list insertion at the fixed index -/

theorem pyInsert_mem {α : Type} {x : α} {l : List α} (i : Nat) :
    ∀ y ∈ l, y ∈ pyInsert i x l := by
  intro y hy
  rw [pyInsert]
  conv at hy => rw [← List.take_append_drop i l]
  rcases List.mem_append.mp hy with h | h
  · exact List.mem_append.mpr (Or.inl h)
  · exact List.mem_append.mpr (Or.inr (List.mem_cons_of_mem x h))

theorem pyInsert_getElem_lt {α : Type} {x : α} {l : List α} {i k : Nat}
    (h1 : k < i) (h2 : k < l.length) :
    (pyInsert i x l)[k]? = l[k]? := by
  rw [pyInsert, List.getElem?_append]
  rw [if_pos (by rw [List.length_take]; omega)]
  rw [List.getElem?_take, if_pos h1]

theorem pyInsert_getElem_ge {α : Type} {x : α} {l : List α} {i k : Nat} (h1 : i ≤ k) :
    (pyInsert i x l)[k + 1]? = l[k]? := by
  by_cases h2 : i ≤ l.length
  · have hlt : (l.take i).length = i := by rw [List.length_take]; omega
    rw [pyInsert, List.getElem?_append]
    rw [if_neg (by rw [hlt]; omega)]
    rw [hlt]
    rw [show k + 1 - i = (k - i) + 1 from by omega]
    rw [List.getElem?_cons_succ]
    rw [List.getElem?_drop]
    congr 1
    omega
  · push_neg at h2
    rw [pyInsert, List.take_of_length_le (by omega), List.drop_of_length_le (by omega)]
    rw [List.getElem?_append]
    rw [if_neg (by omega)]
    rw [show ([x] : List α)[k + 1 - l.length]? = none from by
      rw [List.getElem?_eq_none]
      simp
      omega]
    rw [List.getElem?_eq_none (by omega)]

theorem chainPieces_length : ∀ (rs : List QRecord) (r : QRecord),
    (chainPieces r rs).length = rs.length + 1 := by
  intro rs
  induction rs with
  | nil => intro r; rfl
  | cons r2 rest ih =>
    intro r
    rw [show chainPieces r (r2 :: rest) = pyEmitInnards r :: chainPieces r2 rest from rfl]
    rw [List.length_cons, ih r2, List.length_cons]

theorem chainOut_length (acc : Str) (r : QRecord) (rs : List QRecord) :
    (chainOut acc r rs).length = rs.length + 1 := by
  cases rs with
  | nil => rfl
  | cons r2 rest =>
    rw [show chainOut acc r (r2 :: rest) =
        (acc.reverse ++ pyEmitInnards r) :: chainPieces r2 rest from by
      simp [chainOut, chainPieces]]
    rw [List.length_cons, chainPieces_length, List.length_cons]

theorem repairFragment_head_brace (s : Str) : (repairFragment s).head? = some '{' := by
  rw [repairFragment]
  by_cases hh : (pyStrip s).head? = some '{'
  · rw [if_pos hh]
    by_cases hl : (pyStrip s).getLast? = some '}'
    · rw [if_pos hl]
      exact hh
    · rw [if_neg hl]
      cases hts : pyStrip s with
      | nil => rw [hts] at hh; exact Option.noConfusion hh
      | cons c ts =>
        rw [hts] at hh
        exact hh
  · rw [if_neg hh]
    by_cases hl : ('{' :: pyStrip s : Str).getLast? = some '}'
    · rw [if_pos hl]
      rfl
    · rw [if_neg hl]
      rfl

theorem repairFragment_last_brace (s : Str) : (repairFragment s).getLast? = some '}' := by
  rw [repairFragment]
  by_cases hh : (pyStrip s).head? = some '{'
  · rw [if_pos hh]
    by_cases hl : (pyStrip s).getLast? = some '}'
    · rw [if_pos hl]
      exact hl
    · rw [if_neg hl]
      exact List.getLast?_concat _
  · rw [if_neg hh]
    by_cases hl : ('{' :: pyStrip s : Str).getLast? = some '}'
    · rw [if_pos hl]
      exact hl
    · rw [if_neg hl]
      exact List.getLast?_concat _

/-! ## The claims -/

/-- C1: the re-emitted `answer` field is `str(n)` — the bare decimal
numeral denoting the same integer — when the parsed answer value is an
integer, and `json.dumps` of the list — an array literal whose elements
appear in their original order — when the answer value is a list. -/
theorem claim_C1 (n : Int) (l : List PyAtom) :
    answerStr (PyVal.atom (PyAtom.int n)) = intDec n ∧
    readBareInt (answerStr (PyVal.atom (PyAtom.int n))) = some n ∧
    answerStr (PyVal.list l) = jsonDumpsAtomList l ∧
    readJsonArrLit (answerStr (PyVal.list l)) = some l :=
  ⟨rfl, readBareInt_intDec n, rfl, readJsonArrLit_dumps l⟩

/-- C2: the escaping applied to `cat`, `q` and `explain` is exactly the
per-character map that turns a double quote into backslash-quote (one
backslash, exactly once) and leaves every other character — backslash,
newline, control characters included — unaltered. -/
theorem claim_C2 (r : QRecord) :
    escapeQuotes r.cat = r.cat.flatMap specEscChar ∧
    escapeQuotes r.q = r.q.flatMap specEscChar ∧
    escapeQuotes r.explain = r.explain.flatMap specEscChar ∧
    ∀ c : Char, specEscChar c = if c = '"' then ['\\', '"'] else [c] :=
  ⟨escapeQuotes_eq_flatMap _, escapeQuotes_eq_flatMap _, escapeQuotes_eq_flatMap _,
    fun _ => rfl⟩

/-- C4: when the `test5_questions = [` pattern is not found, the run ends
with exit status `1` and the destination content is left untouched. -/
theorem claim_C4 (content dest : Str) (h : extractArray content = none) :
    runScript content dest = RunOutcome.notFound dest ∧
    (runScript content dest).exitCode = 1 := by
  have hr : runScript content dest = RunOutcome.notFound dest := by
    rw [runScript, h]
  exact ⟨hr, by rw [hr]; rfl⟩

/-- C4 witness: an empty source document has no `test5_questions` array;
the run on it exits with status 1 and returns the destination unchanged. -/
theorem claim_C4_witness :
    extractArray [] = none ∧
    runScript [] ['a'] = RunOutcome.notFound ['a'] ∧
    (runScript [] ['a']).exitCode = 1 :=
  ⟨by decide, (claim_C4 [] ['a'] (by decide)).1, (claim_C4 [] ['a'] (by decide)).2⟩

/-- C10: when the destination has at most 773 lines, the index-773 insert
appends the block after the last existing line and the rewritten file is
the old content with the block appended — the insertion step cannot fail. -/
theorem claim_C10 (dest b : Str) (h : lineCount dest ≤ 773) :
    pyInsert 773 b (pyReadlines dest) = pyReadlines dest ++ [b] ∧
    spliceDest dest b = dest ++ b := by
  have h1 : (pyReadlines dest).length ≤ 773 := h
  have hins : pyInsert 773 b (pyReadlines dest) = pyReadlines dest ++ [b] := by
    rw [pyInsert, List.take_of_length_le h1, List.drop_of_length_le h1]
  refine ⟨hins, ?_⟩
  rw [spliceDest, hins, pyWritelines, List.flatten_append]
  rw [show ([b] : List Str).flatten = b from by simp]
  rw [show (pyReadlines dest).flatten = pyWritelines (pyReadlines dest) from rfl,
    pyWritelines_pyReadlines]

/-- C10 witness: a one-line destination (fewer than 774 lines) gets the
block appended after its last line. -/
theorem claim_C10_witness :
    lineCount ['a'] ≤ 773 ∧
    pyInsert 773 ['x'] (pyReadlines ['a']) = pyReadlines ['a'] ++ [['x']] ∧
    spliceDest ['a'] ['x'] = ['a'] ++ ['x'] :=
  ⟨by decide, (claim_C10 ['a'] ['x'] (by decide)).1, (claim_C10 ['a'] ['x'] (by decide)).2⟩

/-- C7: the repair equals the spec's description — a leading `\x7b` is
added exactly when the stripped fragment does not start with one, a
trailing `\x7d` exactly when it does not end with one — and the repair is
idempotent. -/
theorem claim_C7 (s : Str) :
    repairFragment s = repairSpec s ∧
    repairFragment (repairFragment s) = repairFragment s := by
  constructor
  · rw [repairFragment, repairSpec]
    by_cases hh : (pyStrip s).head? = some '{'
    · rw [if_pos hh]
      by_cases hl : (pyStrip s).getLast? = some '}'
      · rw [if_pos hl, if_pos hl]
        simp
      · rw [if_neg hl, if_neg hl]
    · rw [if_neg hh]
      have hsame : (('{' :: pyStrip s : Str).getLast? = some '}') ↔
          ((pyStrip s).getLast? = some '}') := by
        cases hts : pyStrip s with
        | nil =>
          simp
        | cons c ts =>
          rw [List.getLast?_cons_cons]
      by_cases hl : (pyStrip s).getLast? = some '}'
      · rw [if_pos (hsame.mpr hl), if_pos hl]
        simp
      · rw [if_neg (fun h => hl (hsame.mp h)), if_neg hl]
  · have h1 := repairFragment_head_brace s
    have h2 := repairFragment_last_brace s
    rw [repairFragment]
    rw [pyStrip_eq_self
      (fun c hc => by rw [h1] at hc; cases hc; decide)
      (fun c hc => by rw [h2] at hc; cases hc; decide)]
    rw [if_pos h1, if_pos h2]

/-- C9: every pre-existing destination line survives the splice — each
line is still a member of the inserted list, a line at an index below 773
keeps its index, a line at an index 773 or beyond sits one position later
(after the inserted block element), and the file written back is exactly
the joined inserted list. -/
theorem claim_C9 (dest b : Str) (i j : Nat) (hi1 : i < 773)
    (hi2 : i < (pyReadlines dest).length) (hj : 773 ≤ j) :
    (∀ l ∈ pyReadlines dest, l ∈ pyInsert 773 b (pyReadlines dest)) ∧
    (pyInsert 773 b (pyReadlines dest))[i]? = (pyReadlines dest)[i]? ∧
    (pyInsert 773 b (pyReadlines dest))[j + 1]? = (pyReadlines dest)[j]? ∧
    spliceDest dest b = pyWritelines (pyInsert 773 b (pyReadlines dest)) :=
  ⟨fun l hl => pyInsert_mem 773 l hl, pyInsert_getElem_lt hi1 hi2,
    pyInsert_getElem_ge hj, rfl⟩

/-- C9 witness: a two-line destination keeps both lines; line 0 keeps its
index and the (empty) tail beyond index 773 stays beyond the block. -/
theorem claim_C9_witness :
    (∀ l ∈ pyReadlines ['a', '\n', 'b'],
      l ∈ pyInsert 773 ['x'] (pyReadlines ['a', '\n', 'b'])) ∧
    (pyInsert 773 ['x'] (pyReadlines ['a', '\n', 'b']))[0]? =
      (pyReadlines ['a', '\n', 'b'])[0]? ∧
    (pyInsert 773 ['x'] (pyReadlines ['a', '\n', 'b']))[774]? =
      (pyReadlines ['a', '\n', 'b'])[773]? ∧
    spliceDest ['a', '\n', 'b'] ['x'] =
      pyWritelines (pyInsert 773 ['x'] (pyReadlines ['a', '\n', 'b'])) :=
  claim_C9 ['a', '\n', 'b'] ['x'] 0 773 (by decide) (by decide) (by decide)

/-- C3 (amended): when the destination document has at least 774 lines —
so that index 773 lies strictly inside its line list — splicing the block
built from `N ≥ 1` re-emitted records whose text fields contain no newline
inserts the block's text between the first 773 lines and the rest, and the
rewritten destination has exactly `N` more lines than before. -/
theorem claim_C3 (rs : List QRecord) (dest : Str) (hne : rs ≠ [])
    (hnl : ∀ r ∈ rs, '\n' ∉ r.cat ∧ '\n' ∉ r.q ∧ '\n' ∉ r.explain)
    (hans : ∀ r ∈ rs, (∃ n, r.answer = PyVal.atom (PyAtom.int n)) ∨
        ∃ la, r.answer = PyVal.list la)
    (hdest : 774 ≤ lineCount dest) :
    spliceDest dest (theBlock (rs.map jsEmit)) =
      pyWritelines ((pyReadlines dest).take 773) ++ theBlock (rs.map jsEmit) ++
        pyWritelines ((pyReadlines dest).drop 773) ∧
    lineCount (spliceDest dest (theBlock (rs.map jsEmit))) =
      lineCount dest + rs.length := by
  have hlines : ∀ l ∈ rs.map jsEmit, '\n' ∉ l := by
    intro l hl
    obtain ⟨r, hr, he⟩ := List.mem_map.mp hl
    obtain ⟨c1, c2, c3⟩ := hnl r hr
    exact he ▸ jsEmit_no_nl r c1 c2 c3 (hans r hr)
  constructor
  · rw [spliceDest, pyInsert, pyWritelines, pyWritelines, pyWritelines,
      List.flatten_append, List.flatten_cons, List.append_assoc]
  · rw [lineCount_spliceDest dest _ hdest]
    rw [count_nl_theBlock _ (by simpa using hne) hlines]
    simp

/-- C3 counterexample: the unamended property fails when the destination
has fewer than 774 lines — here one parsed record with newline-free text
fields is spliced into a one-line destination that does not end in a
newline, and the line count grows by 0, not by 1: the block's first line
merges with the destination's dangling last line. -/
theorem claim_C3_counterexample :
    ¬ (lineCount (spliceDest ['a'] (theBlock ([sampleRecA].map jsEmit))) =
       lineCount ['a'] + 1) := by
  decide

set_option maxRecDepth 40000 in
/-- C3 witness: two records — one single-index answer, one multi-index —
spliced into a 774-line destination grow it by exactly 2 lines. -/
theorem claim_C3_witness :
    774 ≤ lineCount c3dest ∧
    lineCount (spliceDest c3dest (theBlock ([sampleRecA, sampleRecB].map jsEmit))) =
      lineCount c3dest + 2 :=
  ⟨by decide,
    (claim_C3 [sampleRecA, sampleRecB] c3dest (by decide)
      (by decide)
      (by
        intro r hr
        rcases List.mem_cons.mp hr with h | h
        · exact Or.inl ⟨0, by rw [h]; rfl⟩
        · rcases List.mem_cons.mp h with h2 | h2
          · exact Or.inr ⟨[PyAtom.int 0, PyAtom.int 0], by rw [h2]; rfl⟩
          · simp at h2)
      (by decide)).2⟩

/-- C6: an array body of well-formed record fragments joined by the
`\x7d,`-newline-indent-`\x7b` boundary splits into exactly one fragment
per record, and parsing returns every record, in the fragments' order,
with no parse errors. -/
theorem claim_C6 (r : QRecord) (rs : List QRecord) (hc : cleanRecord r = true)
    (hcs : ∀ x ∈ rs, cleanRecord x = true) :
    (splitBoundary (pyStrip (srcArrayBody (r :: rs)))).length = (r :: rs).length ∧
    parseQuestionsAux 0 (splitBoundary (pyStrip (srcArrayBody (r :: rs)))) =
      ((r :: rs).map recDict, []) := by
  have hstrip : pyStrip (srcArrayBody (r :: rs)) = srcArrayBody (r :: rs) := by
    apply pyStrip_eq_self
    · intro c hc2
      rw [srcArrayBody_innChain] at hc2
      rw [show ('{' :: innChain r rs : Str).head? = some '{' from rfl] at hc2
      cases hc2
      decide
    · intro c hc2
      rw [srcArrayBody_innChain] at hc2
      rw [show ('{' :: innChain r rs : Str) = ['{'] ++ innChain r rs from rfl,
        getLast?_append_some (innChain_getLast r rs)] at hc2
      cases hc2
      decide
  have hsplit := splitBoundary_srcArrayBody r rs (pyEmitInnards_no_brace hc)
    (fun x hx => pyEmitInnards_no_brace (hcs x hx))
  rw [hstrip, hsplit]
  refine ⟨?_, ?_⟩
  · rw [chainOut_length, List.length_cons]
  · exact parseQuestionsAux_all_ok _ _ 0 (chainOut_eval r rs hc hcs)

/-- C6 witness: a two-record body splits into two fragments and both
records come back, in order, with no errors. -/
theorem claim_C6_witness :
    cleanRecord sampleRecA = true ∧
    (splitBoundary (pyStrip (srcArrayBody [sampleRecA, sampleRecB]))).length = 2 ∧
    parseQuestionsAux 0 (splitBoundary (pyStrip (srcArrayBody [sampleRecA, sampleRecB]))) =
      (([sampleRecA, sampleRecB] : List QRecord).map recDict, []) :=
  ⟨by decide,
    (claim_C6 sampleRecA [sampleRecB] (by decide) (by decide)).1,
    (claim_C6 sampleRecA [sampleRecB] (by decide) (by decide)).2⟩

/-- C8: for a record whose `cat`, `q`, `explain` and option strings hold
no backslash and no newline, whose options are a list and whose answer is
an integer or a list, re-parsing the emitted line under the destination
format's literal rules recovers the record exactly. -/
theorem claim_C8 (r : QRecord) (os : List PyAtom)
    (hcat : '\\' ∉ r.cat ∧ '\n' ∉ r.cat)
    (hq : '\\' ∉ r.q ∧ '\n' ∉ r.q)
    (hex : '\\' ∉ r.explain ∧ '\n' ∉ r.explain)
    (hos : ∀ a ∈ os, ∀ s : Str, a = PyAtom.str s → '\\' ∉ s ∧ '\n' ∉ s)
    (hopt : r.options = PyVal.list os)
    (hans : (∃ n, r.answer = PyVal.atom (PyAtom.int n)) ∨
            (∃ la, r.answer = PyVal.list la)) :
    jsParseLine (jsEmit r) = some r :=
  jsParseLine_jsEmit r os hcat.1 hq.1 hex.1 hopt hans

/-- C8 witness: the round trip at a concrete record with a quote-free
`cat`, quote-bearing-free fields and an integer answer. -/
theorem claim_C8_witness :
    jsParseLine (jsEmit sampleRecA) = some sampleRecA :=
  claim_C8 sampleRecA [PyAtom.str "x".toList, PyAtom.str "y".toList]
    (by decide) (by decide) (by decide)
    (by
      intro a ha s hs
      rcases List.mem_cons.mp ha with h | h
      · rw [h] at hs
        injection hs with h2
        subst h2
        decide
      · rcases List.mem_cons.mp h with h2 | h2
        · rw [h2] at hs
          injection hs with h3
          subst h3
          decide
        · simp at h2)
    rfl (Or.inl ⟨0, rfl⟩)

/-- C5: when fragment `j` of the split fails to evaluate, the failure is
reported as the 1-based index with the repaired fragment's first 200
characters, the fragment is dropped from the parsed sequence — which is
exactly the evaluable fragments in order — and the run still completes
normally with exit status 0, splicing only the surviving records. -/
theorem claim_C5 (content dest body : Str) (j : Nat) (lines : List Str)
    (hb : extractArray content = some body)
    (hj : j < (splitBoundary (pyStrip body)).length)
    (hfail : pyEvalDict (repairFragment ((splitBoundary (pyStrip body)).get ⟨j, hj⟩)) = none)
    (hemit : emitAll (parseQuestionsAux 0 (splitBoundary (pyStrip body))).1 = some lines) :
    (parseQuestionsAux 0 (splitBoundary (pyStrip body))).1 =
      (splitBoundary (pyStrip body)).filterMap (fun s => pyEvalDict (repairFragment s)) ∧
    (j + 1, (repairFragment ((splitBoundary (pyStrip body)).get ⟨j, hj⟩)).take 200) ∈
      (parseQuestionsAux 0 (splitBoundary (pyStrip body))).2 ∧
    runScript content dest = RunOutcome.ok
      (parseQuestionsAux 0 (splitBoundary (pyStrip body))).1.length
      (parseQuestionsAux 0 (splitBoundary (pyStrip body))).2
      (spliceDest dest (theBlock lines)) ∧
    (runScript content dest).exitCode = 0 := by
  have h2 := parseQuestionsAux_err_mem (splitBoundary (pyStrip body)) 0 j hj hfail
  rw [show 0 + j + 1 = j + 1 from by omega] at h2
  have hrun : runScript content dest = RunOutcome.ok
      (parseQuestionsAux 0 (splitBoundary (pyStrip body))).1.length
      (parseQuestionsAux 0 (splitBoundary (pyStrip body))).2
      (spliceDest dest (theBlock lines)) := by
    rw [runScript, hb]
    show (match emitAll (parseQuestionsAux 0 (splitBoundary (pyStrip body))).1 with
      | none => RunOutcome.crashed dest
      | some jsQuestions => RunOutcome.ok
          (parseQuestionsAux 0 (splitBoundary (pyStrip body))).1.length
          (parseQuestionsAux 0 (splitBoundary (pyStrip body))).2
          (spliceDest dest (theBlock jsQuestions))) = _
    rw [hemit]
  exact ⟨parseQuestionsAux_fst _ 0, h2, hrun, by rw [hrun]; rfl⟩

set_option maxRecDepth 40000 in
/-- C5 witness: on a source whose second fragment is malformed, the run
still ends with exit 0, splicing the one surviving record's line. -/
theorem claim_C5_witness :
    runScript c5content c5dest = RunOutcome.ok
      (parseQuestionsAux 0 (splitBoundary (pyStrip c5body))).1.length
      (parseQuestionsAux 0 (splitBoundary (pyStrip c5body))).2
      (spliceDest c5dest (theBlock [c5line])) ∧
    (runScript c5content c5dest).exitCode = 0 :=
  ⟨(claim_C5 c5content c5dest c5body 1 [c5line] (by decide) (by decide) (by decide)
      (by decide)).2.2.1,
   (claim_C5 c5content c5dest c5body 1 [c5line] (by decide) (by decide) (by decide)
      (by decide)).2.2.2⟩
